import Mathlib

/-!
# Verification of the HyperKZG commitment scheme and the REM virtual sequence

This file gives a shallow embedding of two subsystems of the repository:

* `jolt-core/src/poly/commitment/hyperkzg.rs` — the HyperKZG multilinear
  polynomial commitment scheme (commit / open / verify);
* `jolt-core/src/jolt/instruction/rem.rs` — the virtual-instruction expansion
  of the RISC-V signed remainder instruction `REM`.

Modelling conventions:

* The scalar field is an arbitrary `Field F` with decidable equality.
* Curve arithmetic, MSM and the pairing are consumed by the source as
  black-box primitives (spec §6).  `G1`, `G2` and `GT` are cyclic groups of
  prime order `|F|`, so we represent a group element by its discrete
  logarithm: a `G1`/`G2` element is an `F` value, scalar multiplication is
  field multiplication, MSM is a dot product, and the pairing
  `e(a·g1, b·g2)` has discrete logarithm `a * b`; equality in `GT` is
  equality of those logarithms.
* The Fiat–Shamir transcript (`utils/transcript.rs`, not under `src/`) is
  modelled from the spec (§4.2): an append-only list of labelled events;
  a challenge appends its label and is produced by an arbitrary oracle
  function of the whole history, so that two executions performing the same
  sequence of append / challenge calls obtain identical challenges.
* Rust panics (failed `assert!`, arithmetic overflow, division by zero,
  out-of-bounds indexing, `unwrap` of `None`) are modelled by `Option`:
  a function that can panic returns `none` in exactly those cases.
* Machine integers (`u64`, `i32`, `i64`) are modelled by `Nat` / `Int` with
  explicit reduction modulo `2^w`.
-/

namespace JoltModel

/-- Error type of `utils/errors.rs` (declared outside `src/`): `KeyLengthError`
is the commit-time "key too short" failure, `InternalError` the uniform
verifier rejection. -/
inductive ProofVerifyError where
  | KeyLengthError (pkLen : Nat) (needed : Nat)
  | InternalError
deriving DecidableEq

instance {ε α : Type} [DecidableEq ε] [DecidableEq α] : DecidableEq (Except ε α) := fun x y =>
  match x, y with
  | .ok a, .ok b =>
    if h : a = b then isTrue (by rw [h]) else isFalse (by intro hc; cases hc; exact h rfl)
  | .error a, .error b =>
    if h : a = b then isTrue (by rw [h]) else isFalse (by intro hc; cases hc; exact h rfl)
  | .ok _, .error _ => isFalse (by intro hc; cases hc)
  | .error _, .ok _ => isFalse (by intro hc; cases hc)

/-! ## Transcript (modelled from the spec, §4.2)

A transcript is the list of events absorbed so far.  `challenge_scalar`
appends its label and asks the oracle for a scalar depending on the whole
history, which realises the contract "two executions that perform the same
sequence of append/challenge calls with identical payloads produce identical
challenges". -/

/-- One transcript event: absorbed scalars, absorbed points (represented by
their discrete logarithms), or a drawn challenge. -/
inductive TItem (F : Type) where
  | scalars (label : String) (vals : List F)
  | points (label : String) (pts : List F)
  | chal (label : String)
deriving DecidableEq

/-- A Fiat–Shamir transcript: the ordered list of absorbed events. -/
abbrev Transcript (F : Type) := List (TItem F)

/-- `transcript.append_scalars(label, vs)`. -/
def appendScalars {F : Type} (t : Transcript F) (label : String) (vs : List F) : Transcript F :=
  t ++ [TItem.scalars label vs]

/-- `transcript.append_points(label, ps)`. -/
def appendPoints {F : Type} (t : Transcript F) (label : String) (ps : List F) : Transcript F :=
  t ++ [TItem.points label ps]

/-- `transcript.challenge_scalar(label)`: the challenge is an arbitrary
function (`oracle`) of the history including the label of this draw. -/
def challengeScalar {F : Type} (oracle : Transcript F → F) (t : Transcript F)
    (label : String) : F × Transcript F :=
  (oracle (t ++ [TItem.chal label]), t ++ [TItem.chal label])

/-! ## Univariate KZG in discrete-logarithm form -/

/-- `VariableBaseMSM::msm(bases, scalars)` in discrete-logarithm form:
`Σ scalars[i] · bases[i]`.  (The `B_u` computation in `kzg_verify_batch`
is textually the same zip/map/sum, so it reuses this definition.) -/
def msm {F : Type} [Field F] (bases scalars : List F) : F :=
  ((bases.zip scalars).map fun p => p.1 * p.2).sum

/-- `(1, q, q^2, …, q^(k-1))` — `batch_challenge_powers` builds this by the
running product `q_powers[i] = q_powers[i-1] * q`. -/
def batch_challenge_powers {F : Type} [Field F] (q : F) (k : Nat) : List F :=
  (List.range k).map fun i => q ^ i

/-- Horner evaluation `Σ f[i]·u^i` of a coefficient list; the source's
`poly_eval` computes the same sum with a running power `u_power`.  (On an
empty list the source would panic reading `f[0]`; every call site passes a
nonempty polynomial.) -/
def poly_eval {F : Type} [Field F] : List F → F → F
  | [], _ => 0
  | c :: cs, u => c + u * poly_eval cs u

/-- `compute_witness_polynomial`: the quotient `h(X) = f(X) / (X - u)`
(ignoring the remainder `f(u)`), computed in the source by the downward
recurrence `h[d-1] = 0`, `h[i-1] = f[i] + h[i]·u`, whose unique solution is
`h[j] = poly_eval (f.drop (j+1)) u`; this list equals that solution. -/
def compute_witness_polynomial {F : Type} [Field F] : List F → F → List F
  | [], _ => []
  | _ :: cs, u => poly_eval cs u :: compute_witness_polynomial cs u

/-- `UnivariateKZG::commit` (from `kzg.rs`, declared outside `src/`;
modelled from the spec §4.1): `Σ c_i · pk.powers_g1[i]` via MSM, failing
with the key-length error when the key is shorter than the coefficient
list. -/
def uniKzgCommit {F : Type} [Field F] (pk c : List F) : Except ProofVerifyError F :=
  if pk.length < c.length then .error (.KeyLengthError pk.length c.length)
  else .ok (msm pk c)

/-- `HyperKZG::commit`: length check, then univariate KZG commit of the
evaluation vector read as coefficients. -/
def hyperCommit {F : Type} [Field F] (pk Z : List F) : Except ProofVerifyError F :=
  if pk.length < Z.length then .error (.KeyLengthError pk.length Z.length)
  else uniKzgCommit pk Z

/-- The `kzg_open` closure: commit to the witness polynomial of `f` at `u`
(the source `unwrap`s the commit result — `none` models that panic). -/
def kzg_open {F : Type} [Field F] (pk : List F) (f : List F) (u : F) : Option F :=
  (uniKzgCommit pk (compute_witness_polynomial f u)).toOption

/-- `scalar_vector_muladd`: `a[i] += s * v[i]` for `i < v.len()`; the source
asserts `a.len() ≥ v.len()` (every call site satisfies it — the final case
returning `[]` is the unreachable assertion failure). -/
def scalar_vector_muladd {F : Type} [Field F] : List F → List F → F → List F
  | a, [], _ => a
  | a0 :: ar, v0 :: vr, s => (a0 + s * v0) :: scalar_vector_muladd ar vr s
  | [], _ :: _, _ => []

/-- The loop of `kzg_compute_batch_polynomial`: starting from `B`, add
`qp·f_0, qp·q·f_1, …` for the remaining polynomials. -/
def batchGo {F : Type} [Field F] : List F → List (List F) → F → F → List F
  | B, [], _, _ => B
  | B, fi :: rest, qp, q => batchGo (scalar_vector_muladd B fi qp) rest (qp * q) q

/-- `kzg_compute_batch_polynomial`: `B = f[0] + q·f[1] + … + q^(k-1)·f[k-1]`
(coefficient-wise, shorter polynomials padded by zero).  Empty input would
panic reading `f[0]` in the source; call sites pass `k = ℓ ≥ 1`. -/
def kzg_compute_batch_polynomial {F : Type} [Field F] (f : List (List F)) (q : F) : List F :=
  match f with
  | [] => []
  | f0 :: rest => batchGo f0 rest q q

/-! ## HyperKZG prover -/

/-- A HyperKZG evaluation proof: fold commitments `com` (dlog form),
witness commitments `w`, and the `3 × ℓ` evaluation matrix `v`. -/
structure HyperKZGProof (F : Type) where
  com : List F
  w : List F
  v : List (List F)
deriving DecidableEq

/-- One fold step of the tower (the body of the Phase-1 loop):
`P_{i+1}[j] = x̂ · (P_i[2j+1] − P_i[2j]) + P_i[2j]`, the output having
length `⌊|P_i| / 2⌋` (a trailing odd element is dropped, as in the source's
`len / 2`). -/
def fold_step {F : Type} [Field F] (xi : F) : List F → List F
  | a :: b :: rest => (xi * (b - a) + a) :: fold_step xi rest
  | _ => []

/-- The fold tower `[P_0, P_1, …]`: `P_0 = Z` and each further entry folds
the previous one with the next challenge of `xs` (the source passes
`x[ℓ-1-i]` at step `i`, i.e. `xs` is a reversed prefix of the point). -/
def fold_tower {F : Type} [Field F] : List F → List F → List (List F)
  | Z, [] => [Z]
  | Z, xi :: rest => Z :: fold_tower (fold_step xi Z) rest

/-- Multilinear evaluation of the evaluation-form vector `Z` at the point
`x`, defined — as in the Gemini fold used by both `DensePolynomial::evaluate`
and the prover — by folding the whole tower down to a single entry. -/
def mlEval {F : Type} [Field F] (x : List F) (Z : List F) : F :=
  (x.reverse.foldl (fun P xi => fold_step xi P) Z).headD 0

/-- `HyperKZG::open`.  `none` models the source's panics: the
`assert_eq!(n, 1 << ell)`, the underflow of the loop bound `ell - 1` when
`ell = 0`, and `unwrap`s of failed commits. -/
def hyperOpen {F : Type} [Field F] (oracle : Transcript F → F) (pk : List F)
    (t : Transcript F) (Z : List F) (x : List F) :
    Option (HyperKZGProof F × Transcript F) :=
  let ell := x.length
  if Z.length ≠ 2 ^ ell then none
  else if ell = 0 then none
  else
    -- Phase 1: the tower P_0 .. P_{ℓ-1} (P_ℓ is not committed)
    let polys := fold_tower Z (x.reverse.take (ell - 1))
    -- commitments to P_1 .. P_{ℓ-1}
    match (polys.drop 1).mapM (fun Pi => (uniKzgCommit pk Pi).toOption) with
    | none => none
    | some com =>
      -- Phase 2: absorb the commitments, derive r, set u = (r, -r, r²)
      let t1 := appendPoints t "c" com
      let rt := challengeScalar oracle t1 "c"
      let r := rt.1
      let u := [r, -r, r * r]
      -- Phase 3 (kzg_open_batch): evaluations v[i][j] = P_j(u_i)
      let v := u.map fun ui => polys.map fun f => poly_eval f ui
      let t2 := appendScalars rt.2 "v" v.flatten
      let qt := challengeScalar oracle t2 "r"
      let B := kzg_compute_batch_polynomial polys qt.1
      match u.mapM (fun ui => kzg_open pk B ui) with
      | none => none
      | some w =>
        let t3 := appendPoints qt.2 "W" w
        let dt := challengeScalar oracle t3 "d"
        -- the prover draws (and discards) d_0 to stay in sync with the verifier
        some (⟨com, w, v⟩, dt.2)

/-! ## HyperKZG verifier -/

/-- The verifier key: `g1`, `g2` and `τ·g2` in discrete-logarithm form
(the honest key derived from the SRS is `⟨1, 1, τ⟩`). -/
structure KZGVerifierKey (F : Type) where
  g1 : F
  g2 : F
  beta_g2 : F

/-- The multilinear consistency loop of `HyperKZG::verify`: for every
`i ∈ [0, ℓ)` (with `ℓ = x.length`) require
`2·r·Y[i+1] = r·(1 − x[ℓ-1-i])·(ypos[i] + yneg[i]) + x[ℓ-1-i]·(ypos[i] − yneg[i])`. -/
def consistencyOk {F : Type} [Field F] [DecidableEq F]
    (r : F) (x ypos yneg Y : List F) : Bool :=
  (List.range x.length).all fun i =>
    decide ((2 : F) * r * Y.getD (i + 1) 0 =
      r * (1 - x.getD (x.length - i - 1) 0) * (ypos.getD i 0 + yneg.getD i 0)
        + x.getD (x.length - i - 1) 0 * (ypos.getD i 0 - yneg.getD i 0))

/-- The `kzg_verify_batch` closure.  `none` models the panics of
`assert_eq!(t, 3)`, `assert_eq!(W.len(), 3)` and of indexing `B_u[0..2]`
when `v` has fewer than three rows.  The returned `Bool` is the pairing
equality `e(L, g2) = e(R, τ·g2)`, in dlog form `L · g2 = R · β_g2`. -/
def kzg_verify_batch {F : Type} [Field F] [DecidableEq F] (oracle : Transcript F → F)
    (vk : KZGVerifierKey F) (C : List F) (W : List F) (u : List F)
    (v : List (List F)) (t : Transcript F) : Option (Bool × Transcript F) :=
  let k := C.length
  let t1 := appendScalars t "v" v.flatten
  let qt := challengeScalar oracle t1 "r"
  let q := qt.1
  let q_powers := batch_challenge_powers q k
  let t2 := appendPoints qt.2 "W" W
  let dt := challengeScalar oracle t2 "d"
  let d_0 := dt.1
  let d_1 := d_0 * d_0
  if u.length ≠ 3 then none
  else if W.length ≠ 3 then none
  else
    match u, W with
    | [u0, u1, u2], [w0, w1, w2] =>
      let q_power_multiplier := 1 + d_0 + d_1
      let q_powers_multiplied := q_powers.map (· * q_power_multiplier)
      -- B(u_i) = v[i][0] + q·v[i][1] + … + q^(k-1)·v[i][k-1]
      let B_u := v.map fun v_i => msm v_i q_powers
      match B_u with
      | b0 :: b1 :: b2 :: _ =>
        let L := msm (C ++ [w0, w1, w2, vk.g1])
          (q_powers_multiplied ++ [u0, u1 * d_0, u2 * d_1, -(b0 + d_0 * b1 + d_1 * b2)])
        let R := w0 + d_0 * w1 + d_1 * w2
        some (decide (L * vk.g2 = R * vk.beta_g2), dt.2)
      | _ => none
    | _, _ => none

/-- `HyperKZG::verify`.  The outer `Option` models panics (inside
`kzg_verify_batch`); the `Except` is the verifier's result. -/
def hyperVerify {F : Type} [Field F] [DecidableEq F] (oracle : Transcript F → F)
    (vk : KZGVerifierKey F) (t : Transcript F) (C : F) (x : List F) (y : F)
    (pi : HyperKZGProof F) : Option (Except ProofVerifyError Unit × Transcript F) :=
  let ell := x.length
  let t1 := appendPoints t "c" pi.com
  let rt := challengeScalar oracle t1 "c"
  let r := rt.1
  if r = 0 ∨ C = 0 then some (.error .InternalError, rt.2)
  else
    let com := C :: pi.com
    let u := [r, -r, r * r]
    if pi.v.length ≠ 3 then some (.error .InternalError, rt.2)
    else
      match pi.v with
      | [ypos, yneg, Ylist] =>
        if ypos.length ≠ ell ∨ yneg.length ≠ ell ∨ Ylist.length ≠ ell then
          some (.error .InternalError, rt.2)
        else
          let Y := Ylist ++ [y]
          if ¬ consistencyOk r x ypos yneg Y then some (.error .InternalError, rt.2)
          else
            match kzg_verify_batch oracle vk com pi.w u pi.v rt.2 with
            | none => none
            | some (b, t2) =>
              if b then some (.ok (), t2) else some (.error .InternalError, t2)
      | _ => none

/-- Following the spec's words (§4.6 rationale), the *plaintext* form of the
batched KZG check: for each `j`, `e(C_B − B(u_j)·g1 + u_j·w_j, g2) =
e(w_j, τ·g2)`, batched across `j = 0, 1, 2` with weights `(1, d_0, d_0²)`;
in discrete-logarithm form the batched equality of `GT` exponents below,
with `C_B = Σ_{i<k} q^i·C_i` and `B(u_j) = Σ_{i<k} q^i·v[j][i]`. -/
def plaintextBatchedCheck {F : Type} [Field F] (vk : KZGVerifierKey F) (C : List F)
    (w0 w1 w2 : F) (u0 u1 u2 : F) (v0 v1 v2 : List F) (q d_0 : F) : Prop :=
  let d_1 := d_0 * d_0
  let k := C.length
  let CB := ((List.range k).map fun i => q ^ i * C.getD i 0).sum
  let B0 := ((List.range k).map fun i => q ^ i * v0.getD i 0).sum
  let B1 := ((List.range k).map fun i => q ^ i * v1.getD i 0).sum
  let B2 := ((List.range k).map fun i => q ^ i * v2.getD i 0).sum
  let L0 := CB - B0 * vk.g1 + u0 * w0
  let L1 := CB - B1 * vk.g1 + u1 * w1
  let L2 := CB - B2 * vk.g1 + u2 * w2
  (L0 + d_0 * L1 + d_1 * L2) * vk.g2 = (w0 + d_0 * w1 + d_1 * w2) * vk.beta_g2

instance {F : Type} [Field F] [DecidableEq F] (vk : KZGVerifierKey F) (C : List F)
    (w0 w1 w2 u0 u1 u2 : F) (v0 v1 v2 : List F) (q d_0 : F) :
    Decidable (plaintextBatchedCheck vk C w0 w1 w2 u0 u1 u2 v0 v1 v2 q d_0) :=
  inferInstanceAs (Decidable (_ = _))

/-! ## Two's-complement arithmetic for the REM virtual sequence -/

/-- Interpret a `w`-bit value (a `Nat` below `2^w`) in two's complement. -/
def toSigned (w : Nat) (x : Nat) : Int :=
  if x < 2 ^ (w - 1) then (x : Int) else (x : Int) - 2 ^ w

/-- Reinterpret a signed value as a `w`-bit unsigned value (the Rust casts
`as u32 as u64` / `as u64`): reduction modulo `2^w`. -/
def toUnsigned (w : Nat) (i : Int) : Nat :=
  (i % (2 ^ w : Int)).toNat

/-- The Rust cast `u64 → iW`: keep the low `w` bits, read in two's
complement. -/
def castSigned (w : Nat) (x : Nat) : Int :=
  toSigned w (x % 2 ^ w)

/-- The quotient/remainder advice computed by `REMInstruction::virtual_trace`
(lines 93–113): native truncating division and remainder of the
two's-complement-interpreted operands, then if the native remainder and the
divisor have opposite signs, `remainder += y; quotient -= 1`.  Rust's native
`iW` division panics on a zero divisor and on `iW::MIN / -1`; `none` models
those panics. -/
def remAdvice (w : Nat) (x y : Nat) : Option (Nat × Nat) :=
  let xi := castSigned w x
  let yi := castSigned w y
  if yi = 0 then none
  else if xi = -(2 ^ (w - 1) : Int) ∧ yi = -1 then none
  else
    let q0 := xi.tdiv yi
    let r0 := xi.tmod yi
    let qr :=
      if (r0 < 0 ∧ 0 < yi) ∨ (0 < r0 ∧ yi < 0) then (q0 - 1, r0 + yi) else (q0, r0)
    some (toUnsigned w qr.1, toUnsigned w qr.2)

/-! ## The REM instruction and its virtual sequence -/

/-- The opcodes appearing in the REM virtual sequence (a fragment of the
`RV32IM` enum from the tracer crate, declared outside `src/`). -/
inductive RV32IM where
  | REM
  | VIRTUAL_ADVICE
  | VIRTUAL_ASSERT_VALID_SIGNED_REMAINDER
  | MUL
  | ADD
  | VIRTUAL_ASSERT_EQ
deriving DecidableEq

/-- `ELFInstruction` (tracer crate, declared outside `src/`): opcode tag,
optional register operands, optional immediate, sequence index. -/
structure ELFInstruction where
  address : Nat
  opcode : RV32IM
  rs1 : Option Nat
  rs2 : Option Nat
  rd : Option Nat
  imm : Option Int
  virtual_sequence_index : Option Nat
deriving DecidableEq

/-- `RegisterState` (tracer crate): pre-values of the sources and the
post-value of the destination, as 64-bit unsigned words. -/
structure RegisterState where
  rs1_val : Option Nat
  rs2_val : Option Nat
  rd_post_val : Option Nat
deriving DecidableEq

/-- `RVTraceRow` (tracer crate); memory state never occurs in the REM
sequence. -/
structure RVTraceRow where
  instruction : ELFInstruction
  register_state : RegisterState
  memory_state : Option Unit
  advice_value : Option Nat
deriving DecidableEq

/-- Modelled from the spec (§4.7): architectural registers are the indices
below 32; virtual registers `v_0, v_q, v_qy` are reserved indices disjoint
from the architectural register file (`common::constants`, declared outside
`src/`). -/
def virtual_register_index (i : Nat) : Nat := 32 + i

/-- Modelled from the spec: `ADVICEInstruction::<W>(v).lookup_entry()` — the
advice value itself, as a `W`-bit word. -/
def ADVICELookup (w : Nat) (v : Nat) : Nat := v % 2 ^ w

/-- Modelled from the spec: `MULInstruction::<W>(a, b).lookup_entry()` — the
low `W` bits of the product. -/
def MULLookup (w : Nat) (a b : Nat) : Nat := (a * b) % 2 ^ w

/-- Modelled from the spec: `ADDInstruction::<W>(a, b).lookup_entry()` — the
low `W` bits of the sum. -/
def ADDLookup (w : Nat) (a b : Nat) : Nat := (a + b) % 2 ^ w

/-- Modelled from the spec: `BEQInstruction(a, b).lookup_entry()` — `1` iff
the operands are equal. -/
def BEQLookup (a b : Nat) : Nat := if a = b then 1 else 0

/-- Modelled from the spec (§4.7): the
`AssertValidSignedRemainderInstruction::<W>(r, y)` lookup — `1` iff the
remainder is valid for the divisor: `|r| < |y|` with the sign of the
remainder matching the sign of the divisor, or `r = 0`, or the `y = 0`
divide-by-zero sentinel. -/
def assertValidSignedRemainderLookup (w : Nat) (r y : Nat) : Nat :=
  let ri := castSigned w r
  let yi := castSigned w y
  if yi = 0 ∨ ri = 0 ∨ (ri.natAbs < yi.natAbs ∧ ri.sign = yi.sign) then 1 else 0

/-- `REMInstruction::virtual_sequence` (rem.rs lines 15–82): the six
primitive instruction records; `none` models the failed
`assert_eq!(instruction.opcode, RV32IM::REM)`. -/
def REMvirtual_sequence (instruction : ELFInstruction) : Option (List ELFInstruction) :=
  if instruction.opcode ≠ RV32IM.REM then none
  else
    let r_x := instruction.rs1
    let r_y := instruction.rs2
    let v_0 := some (virtual_register_index 0)
    let v_q := some (virtual_register_index 1)
    let v_qy := some (virtual_register_index 2)
    some
      [ { address := instruction.address, opcode := RV32IM.VIRTUAL_ADVICE,
          rs1 := none, rs2 := none, rd := v_q, imm := none,
          virtual_sequence_index := some 0 },
        { address := instruction.address, opcode := RV32IM.VIRTUAL_ADVICE,
          rs1 := none, rs2 := none, rd := instruction.rd, imm := none,
          virtual_sequence_index := some 1 },
        { address := instruction.address,
          opcode := RV32IM.VIRTUAL_ASSERT_VALID_SIGNED_REMAINDER,
          rs1 := instruction.rd, rs2 := r_y, rd := none, imm := none,
          virtual_sequence_index := some 2 },
        { address := instruction.address, opcode := RV32IM.MUL,
          rs1 := v_q, rs2 := r_y, rd := v_qy, imm := none,
          virtual_sequence_index := some 3 },
        { address := instruction.address, opcode := RV32IM.ADD,
          rs1 := v_qy, rs2 := instruction.rd, rd := v_0, imm := none,
          virtual_sequence_index := some 4 },
        { address := instruction.address, opcode := RV32IM.VIRTUAL_ASSERT_EQ,
          rs1 := v_0, rs2 := r_x, rd := none, imm := none,
          virtual_sequence_index := some 5 } ]

/-- `REMInstruction::<WORD_SIZE>::virtual_trace` (rem.rs lines 84–189).
`none` models the panics: wrong opcode, missing operand values
(`unwrap`), an unsupported word size, native division panics inside the
advice computation, and the failed `assert_eq!(is_valid, 1)`. -/
def REMvirtual_trace (w : Nat) (trace_row : RVTraceRow) : Option (List RVTraceRow) :=
  if trace_row.instruction.opcode ≠ RV32IM.REM then none
  else
    match trace_row.register_state.rs1_val, trace_row.register_state.rs2_val with
    | some x, some y =>
      match REMvirtual_sequence trace_row.instruction with
      | none => none
      | some vseq =>
        match vseq with
        | [i0, i1, i2, i3, i4, i5] =>
          if w = 32 ∨ w = 64 then
            match remAdvice w x y with
            | none => none
            | some (quotient, remainder) =>
              let q := ADVICELookup w quotient
              let r := ADVICELookup w remainder
              let is_valid := assertValidSignedRemainderLookup w r y
              if is_valid ≠ 1 then none
              else
                let q_y := MULLookup w q y
                let add_0 := ADDLookup w q_y r
                some
                  [ { instruction := i0,
                      register_state :=
                        { rs1_val := none, rs2_val := none, rd_post_val := some q },
                      memory_state := none, advice_value := some quotient },
                    { instruction := i1,
                      register_state :=
                        { rs1_val := none, rs2_val := none, rd_post_val := some r },
                      memory_state := none, advice_value := some remainder },
                    { instruction := i2,
                      register_state :=
                        { rs1_val := some r, rs2_val := some y, rd_post_val := none },
                      memory_state := none, advice_value := none },
                    { instruction := i3,
                      register_state :=
                        { rs1_val := some q, rs2_val := some y, rd_post_val := some q_y },
                      memory_state := none, advice_value := none },
                    { instruction := i4,
                      register_state :=
                        { rs1_val := some q_y, rs2_val := some r,
                          rd_post_val := some add_0 },
                      memory_state := none, advice_value := none },
                    { instruction := i5,
                      register_state :=
                        { rs1_val := some add_0, rs2_val := some x,
                          rd_post_val := none },
                      memory_state := none, advice_value := none } ]
          else none
        | _ => none
    | _, _ => none

/-! ## Executing a virtual trace against a register file

Modelled from the spec (§8, invariant 5) and the harness in
`rem.rs` lines 240–264: each row's recorded operand values must agree with
the register file, the row's lookup output is written to `rd` (checked
against the recorded post-value), and rows without a destination are assert
rows whose outputs are collected. -/

/-- The lookup output of one trace row, from its recorded operand /
advice values (`RV32I::try_from(&row).lookup_entry()`). -/
def rowLookup (w : Nat) (row : RVTraceRow) : Nat :=
  match row.instruction.opcode with
  | RV32IM.VIRTUAL_ADVICE => ADVICELookup w (row.advice_value.getD 0)
  | RV32IM.MUL =>
    MULLookup w (row.register_state.rs1_val.getD 0) (row.register_state.rs2_val.getD 0)
  | RV32IM.ADD =>
    ADDLookup w (row.register_state.rs1_val.getD 0) (row.register_state.rs2_val.getD 0)
  | RV32IM.VIRTUAL_ASSERT_VALID_SIGNED_REMAINDER =>
    assertValidSignedRemainderLookup w (row.register_state.rs1_val.getD 0)
      (row.register_state.rs2_val.getD 0)
  | RV32IM.VIRTUAL_ASSERT_EQ =>
    BEQLookup (row.register_state.rs1_val.getD 0) (row.register_state.rs2_val.getD 0)
  | RV32IM.REM => 0

/-- Do the row's recorded source values agree with the register file?
(The harness `unwrap`s the operand index when a value is recorded, and
asserts `registers[idx] == val`.) -/
def operandsOk (regs : Nat → Nat) (row : RVTraceRow) : Bool :=
  (match row.register_state.rs1_val, row.instruction.rs1 with
   | some a, some s => regs s == a
   | some _, none => false
   | none, _ => true) &&
  (match row.register_state.rs2_val, row.instruction.rs2 with
   | some a, some s => regs s == a
   | some _, none => false
   | none, _ => true)

/-- Point update of a register file. -/
def regUpdate (regs : Nat → Nat) (d v : Nat) : Nat → Nat :=
  fun j => if j = d then v else regs j

/-- Execute one row: check the operands, compute the lookup output, write
the destination (checking the recorded post-value) or emit the output of an
assert row.  `none` models a failed harness assertion. -/
def execRow (w : Nat) (regs : Nat → Nat) (row : RVTraceRow) :
    Option ((Nat → Nat) × Option Nat) :=
  if operandsOk regs row then
    let out := rowLookup w row
    match row.instruction.rd, row.register_state.rd_post_val with
    | some d, some pv => if out = pv then some (regUpdate regs d out, none) else none
    | some _, none => none
    | none, _ => some (regs, some out)
  else none

/-- Execute a list of rows, collecting the outputs of the assert rows. -/
def execRows (w : Nat) : (Nat → Nat) → List RVTraceRow → Option ((Nat → Nat) × List Nat)
  | regs, [] => some (regs, [])
  | regs, row :: rest =>
    match execRow w regs row with
    | none => none
    | some (regs2, o) =>
      match execRows w regs2 rest with
      | none => none
      | some (rf, outs) => some (rf, o.elim outs (· :: outs))


/-! # Theorems

First a suite of arithmetic lemmas about truncating division and
two's-complement casts, then the claim theorems. -/

theorem tmod_eq_sign_mul : ∀ (a b : Int), Int.tmod a b = a.sign * ((a.natAbs % b.natAbs : Nat) : Int)
  | Int.ofNat 0, _ => by simp
  | Int.ofNat (m+1), Int.ofNat n =>
      (one_mul (Int.ofNat ((m+1) % n))).symm
  | Int.ofNat (m+1), Int.negSucc n =>
      (one_mul (Int.ofNat ((m+1) % (n+1)))).symm
  | Int.negSucc m, Int.ofNat n => by
      show -(Int.ofNat ((m+1) % n)) = -1 * Int.ofNat ((m+1) % n)
      rw [neg_one_mul]
  | Int.negSucc m, Int.negSucc n => by
      show -(Int.ofNat ((m+1) % (n+1))) = -1 * Int.ofNat ((m+1) % (n+1))
      rw [neg_one_mul]

theorem natAbs_tmod (a b : Int) : (Int.tmod a b).natAbs = a.natAbs % b.natAbs := by
  rcases eq_or_ne a 0 with rfl | ha
  · simp
  · rw [tmod_eq_sign_mul, Int.natAbs_mul, Int.natAbs_sign_of_nonzero ha, one_mul,
      Int.natAbs_ofNat]

theorem tmod_natAbs_lt (a b : Int) (hb : b ≠ 0) : (Int.tmod a b).natAbs < b.natAbs := by
  rw [natAbs_tmod]
  exact Nat.mod_lt _ (by omega : 0 < b.natAbs)

theorem natCast_two_pow (w : Nat) : (((2:Nat)^w : Nat) : Int) = (2:Int)^w := by
  push_cast
  ring

theorem pow_split {w : Nat} (hw : 1 ≤ w) : (2:Nat)^w = 2 * 2^(w-1) := by
  conv_lhs => rw [show w = (w-1) + 1 by omega]
  rw [pow_succ]
  ring

theorem int_pow_split {w : Nat} (hw : 1 ≤ w) : (2:Int)^w = 2 * 2^(w-1) := by
  rw [← natCast_two_pow, ← natCast_two_pow, pow_split hw]
  push_cast
  ring

theorem toSigned_bounds {w : Nat} (hw : 1 ≤ w) {v : Nat} (hv : v < 2^w) :
    -((2:Int)^(w-1)) ≤ toSigned w v ∧ toSigned w v < (2:Int)^(w-1) := by
  have e1 := natCast_two_pow (w-1)
  have e2 := natCast_two_pow w
  have e3 := int_pow_split hw
  unfold toSigned
  split <;> omega

theorem toSigned_natAbs_le {w : Nat} (hw : 1 ≤ w) {v : Nat} (hv : v < 2^w) :
    (toSigned w v).natAbs ≤ 2^(w-1) := by
  have h := toSigned_bounds hw hv
  have e1 := natCast_two_pow (w-1)
  omega

theorem toSigned_emod (w : Nat) (v : Nat) :
    toSigned w v % ((2:Int)^w) = (v : Int) % 2^w := by
  unfold toSigned
  split
  · rfl
  · rw [show (v : Int) - 2^w = v + 2^w * (-1) by ring, Int.add_mul_emod_self_left]

theorem toUnsigned_lt {w : Nat} (i : Int) : toUnsigned w i < 2^w := by
  unfold toUnsigned
  have h1 : (0:Int) ≤ i % 2^w := Int.emod_nonneg i (by positivity)
  have h2 : i % 2^w < 2^w := Int.emod_lt_of_pos i (by positivity)
  have e2 := natCast_two_pow w
  omega

theorem toUnsigned_cast (w : Nat) (i : Int) : ((toUnsigned w i : Nat) : Int) = i % 2^w := by
  unfold toUnsigned
  rw [Int.toNat_of_nonneg (Int.emod_nonneg i (by positivity))]

theorem castSigned_eq_toSigned {w : Nat} {v : Nat} (hv : v < 2^w) :
    castSigned w v = toSigned w v := by
  unfold castSigned
  rw [Nat.mod_eq_of_lt hv]

theorem castSigned_toUnsigned {w : Nat} (hw : 1 ≤ w) {i : Int}
    (h1 : -((2:Int)^(w-1)) ≤ i) (h2 : i < 2^(w-1)) :
    castSigned w (toUnsigned w i) = i := by
  have e1 := natCast_two_pow (w-1)
  have e2 := natCast_two_pow w
  have e3 := int_pow_split hw
  have hstep : (i + (2:Int)^w) % 2^w = i % 2^w := by
    have h := Int.add_mul_emod_self_left i ((2:Int)^w) 1
    rw [mul_one] at h
    exact h
  have hemod : i % (2:Int)^w = if 0 ≤ i then i else i + 2^w := by
    split
    · exact Int.emod_eq_of_lt (by omega) (by omega)
    · rw [← hstep]
      exact Int.emod_eq_of_lt (by omega) (by omega)
  rw [castSigned_eq_toSigned (toUnsigned_lt i)]
  have hc := toUnsigned_cast w i
  unfold toSigned
  split <;> rename_i hsp
  · omega
  · omega



/-- Honest-advice correctness: under the conditions where the native division
does not panic, `remAdvice` produces `w`-bit values `q, r` with
`q·y + r ≡ x (mod 2^w)`, a remainder sign matching the divisor (or zero),
and an accepting valid-signed-remainder lookup. -/
theorem remAdvice_spec {w x y : Nat} (hw : 1 ≤ w) (hx : x < 2^w) (hy : y < 2^w)
    (hy0 : toSigned w y ≠ 0)
    (hmin : ¬(toSigned w x = -((2:Int)^(w-1)) ∧ toSigned w y = -1)) :
    ∃ q r : Nat, remAdvice w x y = some (q, r) ∧ q < 2^w ∧ r < 2^w ∧
      (q * y + r) % 2^w = x ∧
      assertValidSignedRemainderLookup w r y = 1 ∧
      (toSigned w r = 0 ∨ (toSigned w r).sign = (toSigned w y).sign) := by
  have e1 := natCast_two_pow (w-1)
  have e2 := natCast_two_pow w
  have e3 := int_pow_split hw
  set xi := toSigned w x with hxi
  set yi := toSigned w y with hyi
  have hxb := toSigned_bounds hw hx
  have hyb := toSigned_bounds hw hy
  set q0 := xi.tdiv yi with hq0
  set r0 := xi.tmod yi with hr0
  have hident : yi * q0 + r0 = xi := Int.tdiv_add_tmod xi yi
  have hr0abs : r0.natAbs < yi.natAbs := tmod_natAbs_lt xi yi hy0
  have hyabs : yi.natAbs ≤ 2^(w-1) := toSigned_natAbs_le hw hy
  set q1 : Int := if (r0 < 0 ∧ 0 < yi) ∨ (0 < r0 ∧ yi < 0) then q0 - 1 else q0 with hq1
  set r1 : Int := if (r0 < 0 ∧ 0 < yi) ∨ (0 < r0 ∧ yi < 0) then r0 + yi else r0 with hr1
  have hadv : remAdvice w x y = some (toUnsigned w q1, toUnsigned w r1) := by
    unfold remAdvice
    rw [castSigned_eq_toSigned hx, castSigned_eq_toSigned hy, ← hxi, ← hyi,
      if_neg hy0, if_neg hmin]
    simp only []
    rw [← hq0, ← hr0]
    by_cases hcc : (r0 < 0 ∧ 0 < yi) ∨ (0 < r0 ∧ yi < 0)
    · simp only [hq1, hr1, if_pos hcc]
    · simp only [hq1, hr1, if_neg hcc]
  have hident1 : q1 * yi + r1 = xi := by
    rw [hq1, hr1]
    split <;> linear_combination hident
  have hr1abs : r1.natAbs < yi.natAbs := by
    rw [hr1]
    split <;> rename_i hcc
    · rcases hcc with ⟨h1, h2⟩ | ⟨h1, h2⟩ <;> omega
    · omega
  have hr1sign : r1 = 0 ∨ (0 < r1 ∧ 0 < yi) ∨ (r1 < 0 ∧ yi < 0) := by
    rw [hr1]
    split <;> rename_i hcc
    · rcases hcc with ⟨h1, h2⟩ | ⟨h1, h2⟩ <;> omega
    · simp only [not_or, not_and, not_lt] at hcc
      omega
  have hr1lo : -((2:Int)^(w-1)) ≤ r1 := by omega
  have hr1hi : r1 < (2:Int)^(w-1) := by omega
  have hrr : castSigned w (toUnsigned w r1) = r1 := castSigned_toUnsigned hw hr1lo hr1hi
  refine ⟨toUnsigned w q1, toUnsigned w r1, hadv, toUnsigned_lt q1, toUnsigned_lt r1,
    ?_, ?_, ?_⟩
  · -- (q·y + r) mod 2^w = x
    have hq := toUnsigned_cast w q1
    have hr := toUnsigned_cast w r1
    have myi : Int.ModEq ((2:Int)^w) yi (y : Int) := toSigned_emod w y
    have mxi : Int.ModEq ((2:Int)^w) xi (x : Int) := toSigned_emod w x
    have hInt : (((toUnsigned w q1 * y + toUnsigned w r1) % 2^w : Nat) : Int) = (x : Int) := by
      push_cast
      rw [hq, hr]
      have m1 : Int.ModEq ((2:Int)^w) (q1 % 2^w) q1 := Int.emod_emod_of_dvd q1 dvd_rfl
      have m2 : Int.ModEq ((2:Int)^w) (r1 % 2^w) r1 := Int.emod_emod_of_dvd r1 dvd_rfl
      calc (q1 % 2^w * y + r1 % 2^w) % 2^w
          = (q1 * y + r1) % 2^w := (m1.mul_right _).add m2
        _ = (q1 * yi + r1) % 2^w := (myi.symm.mul_left q1).add_right r1
        _ = xi % 2^w := by rw [hident1]
        _ = (x : Int) % 2^w := mxi
        _ = (x : Int) := Int.emod_eq_of_lt (by omega) (by omega)
    exact_mod_cast hInt
  · -- the valid-signed-remainder lookup accepts
    unfold assertValidSignedRemainderLookup
    rw [hrr, castSigned_eq_toSigned hy, ← hyi]
    rcases hr1sign with h0 | ⟨hp, hyp⟩ | ⟨hn, hyn⟩
    · rw [if_pos (Or.inr (Or.inl h0))]
    · rw [if_pos (Or.inr (Or.inr ⟨hr1abs,
        by rw [Int.sign_eq_one_of_pos hp, Int.sign_eq_one_of_pos hyp]⟩))]
    · rw [if_pos (Or.inr (Or.inr ⟨hr1abs,
        by rw [Int.sign_eq_neg_one_of_neg hn, Int.sign_eq_neg_one_of_neg hyn]⟩))]
  · -- sign of the remainder
    have : toSigned w (toUnsigned w r1) = r1 := by
      rw [← castSigned_eq_toSigned (toUnsigned_lt r1)]
      exact hrr
    rw [this]
    rcases hr1sign with h0 | ⟨hp, hyp⟩ | ⟨hn, hyn⟩
    · exact Or.inl h0
    · exact Or.inr (by rw [Int.sign_eq_one_of_pos hp, Int.sign_eq_one_of_pos hyp])
    · exact Or.inr (by rw [Int.sign_eq_neg_one_of_neg hn, Int.sign_eq_neg_one_of_neg hyn])


/-! ## Claim C6: prover-side advice correctness for REM -/

/-- C6 (counterexample): the claim quantifies over *every* pair of `W`-bit
values, but at `x = 7, y = 0` the source's native signed division panics
(division by zero), so no quotient/remainder satisfying the claimed
identities is computed at all. -/
theorem rem_advice_total_cex :
    ¬ ∃ q r : Nat, remAdvice 32 7 0 = some (q, r) ∧ (q * 0 + r) % 2^32 = 7 ∧
      (toSigned 32 r = 0 ∨ (toSigned 32 r).sign = (toSigned 32 0).sign) := by
  have h : remAdvice 32 7 0 = none := by decide
  rintro ⟨q, r, hq, -⟩
  rw [h] at hq
  exact Option.noConfusion hq

/-- C6 (amended): for `W ∈ {32, 64}` and `W`-bit values `x, y` such that the
native division is defined (`y ≠ 0` as a signed value, and not
`iW::MIN / -1`), the advice quotient/remainder of
`REMInstruction::virtual_trace` satisfy `q·y + r = x` in the `W`-bit ring
and the remainder is zero or has the sign of the divisor. -/
theorem rem_advice_ring_and_sign {w x y : Nat} (hw : w = 32 ∨ w = 64)
    (hx : x < 2^w) (hy : y < 2^w) (hy0 : toSigned w y ≠ 0)
    (hmin : ¬(toSigned w x = -((2:Int)^(w-1)) ∧ toSigned w y = -1)) :
    ∃ q r : Nat, remAdvice w x y = some (q, r) ∧
      (q * y + r) % 2^w = x ∧
      (toSigned w r = 0 ∨ (toSigned w r).sign = (toSigned w y).sign) := by
  have hw1 : 1 ≤ w := by rcases hw with rfl | rfl <;> norm_num
  obtain ⟨q, r, h1, _, _, h4, _, h6⟩ := remAdvice_spec hw1 hx hy hy0 hmin
  exact ⟨q, r, h1, h4, h6⟩

/-- Witness for `rem_advice_ring_and_sign` at `W = 32`, `x = 7`,
`y = −3` (`4294967293`). -/
theorem rem_advice_ring_and_sign_witness :
    (((32:Nat) = 32 ∨ (32:Nat) = 64) ∧ (7:Nat) < 2^32 ∧ (4294967293:Nat) < 2^32 ∧
      toSigned 32 4294967293 ≠ 0 ∧
      ¬(toSigned 32 7 = -((2:Int)^(32-1)) ∧ toSigned 32 4294967293 = -1)) ∧
    (∃ q r : Nat, remAdvice 32 7 4294967293 = some (q, r) ∧
      (q * 4294967293 + r) % 2^32 = 7 ∧
      (toSigned 32 r = 0 ∨ (toSigned 32 r).sign = (toSigned 32 4294967293).sign)) :=
  ⟨⟨Or.inl rfl, by norm_num, by norm_num, by decide, by decide⟩,
    rem_advice_ring_and_sign (Or.inl rfl) (by norm_num) (by norm_num) (by decide) (by decide)⟩

/-! ## Claim C8: scenario S4 — REM(x = 7, y = −3) -/

/-- C8 (counterexample): the claim (and spec scenario S4) says the advice at
`x = 7, y = −3` is `(q, r) = (−2, 1)`; the code's sign adjustment fires
(native remainder `1` and divisor `−3` have opposite signs) and produces
`(−3, −2)` instead. -/
theorem rem_s4_cex :
    remAdvice 32 7 4294967293 ≠ some (4294967294, 1) ∧
    remAdvice 32 7 4294967293 = some (4294967293, 4294967294) := by decide

/-- C8 (amended): scenario S4 as the code computes it: on a REM row with
`rs1 = 1` holding `x = 7`, `rs2 = 2` holding `y = −3` (`4294967293`) and
`rd = 3`, the virtual trace has six rows with advice `(q, r) = (−3, −2)`,
executing them leaves `rs1`/`rs2` unchanged, `rd` holds `−2`
(`4294967294`), and both assert rows output `1`. -/
theorem rem_s4_amended :
    remAdvice 32 7 4294967293 = some (4294967293, 4294967294) ∧
    (REMvirtual_trace 32 ⟨⟨0, RV32IM.REM, some 1, some 2, some 3, none, none⟩,
        ⟨some 7, some 4294967293, none⟩, none, none⟩).map List.length = some 6 ∧
    ((REMvirtual_trace 32 ⟨⟨0, RV32IM.REM, some 1, some 2, some 3, none, none⟩,
        ⟨some 7, some 4294967293, none⟩, none, none⟩).bind fun rows =>
      (execRows 32 (fun i => if i = 1 then 7 else if i = 2 then 4294967293 else 0) rows).map
        fun p => (p.1 1, p.1 2, p.1 3, p.2))
      = some (7, 4294967293, 4294967294, [1, 1]) := by decide

/-! ## Claim C9: scenario S6 — REM(x = 5, y = 0) -/

/-- C9: the spec's divide-by-zero convention (`q = 0`, `r = x`) is the
intent, but the source's native `i32` division panics on a zero divisor:
evaluating the advice computation and the whole trace builder at the
failing input `x = 5, y = 0` yields the modelled panic, not a trace. -/
theorem rem_divzero_panics :
    remAdvice 32 5 0 = none ∧
    REMvirtual_trace 32 ⟨⟨0, RV32IM.REM, some 1, some 2, some 3, none, none⟩,
      ⟨some 5, some 0, none⟩, none, none⟩ = none := by decide

theorem remAdvice_lt {w x y q r : Nat} (h : remAdvice w x y = some (q, r)) :
    q < 2^w ∧ r < 2^w := by
  unfold remAdvice at h
  simp only [] at h
  split at h
  · exact Option.noConfusion h
  · split at h
    · exact Option.noConfusion h
    · obtain ⟨h1, h2⟩ := Prod.mk.injEq .. ▸ Option.some_inj.mp h
      rw [← h1, ← h2]
      exact ⟨toUnsigned_lt _, toUnsigned_lt _⟩

theorem remAdvice_correct {w x y q r : Nat} (hw : 1 ≤ w) (hx : x < 2^w) (hy : y < 2^w)
    (hadv : remAdvice w x y = some (q, r)) :
    q < 2^w ∧ r < 2^w ∧ (q * y + r) % 2^w = x ∧
    assertValidSignedRemainderLookup w r y = 1 ∧
    (toSigned w r = 0 ∨ (toSigned w r).sign = (toSigned w y).sign) := by
  have hy0 : toSigned w y ≠ 0 := by
    intro h0
    unfold remAdvice at hadv
    simp only [] at hadv
    rw [castSigned_eq_toSigned hy, if_pos h0] at hadv
    exact Option.noConfusion hadv
  have hmin : ¬(toSigned w x = -((2:Int)^(w-1)) ∧ toSigned w y = -1) := by
    intro h0
    unfold remAdvice at hadv
    simp only [] at hadv
    rw [castSigned_eq_toSigned hy, castSigned_eq_toSigned hx, if_neg hy0, if_pos h0] at hadv
    exact Option.noConfusion hadv
  obtain ⟨q', r', h1, h2, h3, h4, h5, h6⟩ := remAdvice_spec hw hx hy hy0 hmin
  have heq := h1.symm.trans hadv
  simp only [Option.some_inj, Prod.mk.injEq] at heq
  obtain ⟨hq', hr'⟩ := heq
  subst hq'
  subst hr'
  exact ⟨h2, h3, h4, h5, h6⟩


/-- Shape of the six trace rows on a well-formed REM row with defined
advice and an accepting valid-remainder lookup. -/
theorem REMvirtual_trace_eq {a b d addr x y q r : Nat} (rdp : Option Nat)
    (hadv : remAdvice 32 x y = some (q, r)) (hq : q < 2^32) (hr : r < 2^32)
    (hvalid : assertValidSignedRemainderLookup 32 r y = 1) :
    REMvirtual_trace 32 ⟨⟨addr, RV32IM.REM, some a, some b, some d, none, none⟩,
      ⟨some x, some y, rdp⟩, none, none⟩ =
    some
      [ ⟨⟨addr, RV32IM.VIRTUAL_ADVICE, none, none, some 33, none, some 0⟩,
          ⟨none, none, some q⟩, none, some q⟩,
        ⟨⟨addr, RV32IM.VIRTUAL_ADVICE, none, none, some d, none, some 1⟩,
          ⟨none, none, some r⟩, none, some r⟩,
        ⟨⟨addr, RV32IM.VIRTUAL_ASSERT_VALID_SIGNED_REMAINDER, some d, some b, none, none,
            some 2⟩,
          ⟨some r, some y, none⟩, none, none⟩,
        ⟨⟨addr, RV32IM.MUL, some 33, some b, some 34, none, some 3⟩,
          ⟨some q, some y, some ((q * y) % 2^32)⟩, none, none⟩,
        ⟨⟨addr, RV32IM.ADD, some 34, some d, some 32, none, some 4⟩,
          ⟨some ((q * y) % 2^32), some r, some (((q * y) % 2^32 + r) % 2^32)⟩, none, none⟩,
        ⟨⟨addr, RV32IM.VIRTUAL_ASSERT_EQ, some 32, some a, none, none, some 5⟩,
          ⟨some (((q * y) % 2^32 + r) % 2^32), some x, none⟩, none, none⟩ ] := by
  have hqm : q % 2^32 = q := Nat.mod_eq_of_lt hq
  have hrm : r % 2^32 = r := Nat.mod_eq_of_lt hr
  unfold REMvirtual_trace REMvirtual_sequence
  simp only [virtual_register_index, hadv, ADVICELookup, MULLookup, ADDLookup, hqm, hrm]
  rw [if_neg (by simp)]
  simp only [hvalid]
  norm_num


/-! ## Claim C7: frame property of the signed-remainder virtual sequence -/

/-- C7 (amended): for a REM instruction with sources `rs1 = a`, `rs2 = b`
and destination `rd = d`, *provided `rd` is distinct from both sources*
(forced by the counterexample `rem_frame_cex`), executing the six rows of
`REMInstruction::<32>::virtual_trace` against a register file holding `x`
in `rs1`, `y` in `rs2` and zero elsewhere succeeds, leaves `rd` holding the
honest advice remainder `r`, leaves `rs1`/`rs2` unchanged, leaves every
other architectural register zero, and both assert rows output `1`. -/
theorem rem_frame {a b d n x y : Nat} (regs0 : Nat → Nat) {rows : List RVTraceRow}
    (ha : a < 32) (hb : b < 32) (hd : d < 32) (hda : d ≠ a) (hdb : d ≠ b)
    (hx : x < 2^32) (hy : y < 2^32)
    (hra : regs0 a = x) (hrb : regs0 b = y)
    (hr0 : ∀ i, i ≠ a → i ≠ b → regs0 i = 0)
    (htrace : REMvirtual_trace 32 ⟨⟨n, RV32IM.REM, some a, some b, some d, none, none⟩,
      ⟨some x, some y, none⟩, none, none⟩ = some rows) :
    ∃ q r f, remAdvice 32 x y = some (q, r) ∧
      execRows 32 regs0 rows = some (f, [1, 1]) ∧
      f d = r ∧ f a = x ∧ f b = y ∧
      ∀ i, i < 32 → i ≠ a → i ≠ b → i ≠ d → f i = 0 := by
  -- extract the advice from the trace hypothesis
  obtain ⟨⟨q, r⟩, hadv⟩ : ∃ p, remAdvice 32 x y = some p := by
    rcases hop : remAdvice 32 x y with _ | p
    · rw [REMvirtual_trace] at htrace
      simp only [hop] at htrace
      rw [if_neg (by simp)] at htrace
      simp [REMvirtual_sequence] at htrace
    · exact ⟨p, rfl⟩
  obtain ⟨hq, hr, hring, hvalid, -⟩ :=
    remAdvice_correct (by norm_num) hx hy hadv
  rw [REMvirtual_trace_eq none hadv hq hr hvalid] at htrace
  obtain rfl : rows = _ := (Option.some_inj.mp htrace).symm
  have hqm : q % 2^32 = q := Nat.mod_eq_of_lt hq
  have hrm : r % 2^32 = r := Nat.mod_eq_of_lt hr
  have hbeq : ((q * y) % 2^32 + r) % 2^32 = x := by
    rw [Nat.mod_add_mod]
    exact hring
  have h1 : ¬((33:Nat) = d) := by omega
  have h2 : ¬(b = d) := Ne.symm hdb
  have h3 : ¬(b = (33:Nat)) := by omega
  have h4 : ¬(d = (34:Nat)) := by omega
  have h5 : ¬(a = (32:Nat)) := by omega
  have h6 : ¬(a = (34:Nat)) := by omega
  have h7 : ¬(a = d) := Ne.symm hda
  have h8 : ¬(a = (33:Nat)) := by omega
  have hq4 : q < 4294967296 := by omega
  have hr4 : r < 4294967296 := by omega
  have hqm4 : q % 4294967296 = q := by omega
  have hrm4 : r % 4294967296 = r := by omega
  have hring4 : (q * y + r) % 4294967296 = x := by omega
  refine ⟨q, r,
    regUpdate (regUpdate (regUpdate (regUpdate regs0 33 q) d r) 34
      (q * y % 4294967296)) 32 ((q * y + r) % 4294967296),
    hadv, ?_, ?_, ?_, ?_, ?_⟩
  · simp [execRows, execRow, operandsOk, rowLookup, regUpdate, ADVICELookup, MULLookup,
      ADDLookup, BEQLookup, hqm, hrm, hvalid, hq4, hr4, hqm4, hrm4, hring4,
      h1, h2, h3, h4, h5, h6, h7, h8, hra, hrb]
  · simp [regUpdate, show ¬(d = 32) from by omega, h4]
  · simp [regUpdate, h5, h6, h7, h8, hra]
  · simp [regUpdate, show ¬(b = 32) from by omega, show ¬(b = 34) from by omega, h2, h3, hrb]
  · intro i hi hia hib hid
    simp only [regUpdate]
    rw [if_neg (show ¬(i = 32) from by omega), if_neg (show ¬(i = 34) from by omega),
      if_neg hid, if_neg (show ¬(i = 33) from by omega)]
    exact hr0 i hia hib


/-- C7 (counterexample): the claim as stated quantifies over *every* choice
of `rs1`, `rs2`, `rd`.  With `rd = rs1` (here both `1`), the second advice
row overwrites `rs1`, so the final `ASSERT_EQ` row's recorded operand no
longer matches the register file: the six rows exist but executing them
fails, and `rs1` does not retain its original value. -/
theorem rem_frame_cex :
    (REMvirtual_trace 32 ⟨⟨0, RV32IM.REM, some 1, some 2, some 1, none, none⟩,
      ⟨some 7, some 3, none⟩, none, none⟩).isSome = true ∧
    ((REMvirtual_trace 32 ⟨⟨0, RV32IM.REM, some 1, some 2, some 1, none, none⟩,
        ⟨some 7, some 3, none⟩, none, none⟩).bind
      (execRows 32 (fun i => if i = 1 then 7 else if i = 2 then 3 else 0))).isNone
      = true := by
  decide

/-- Witness for `rem_frame` at `rs1 = 1`, `rs2 = 2`, `rd = 3`, `x = 7`,
`y = 3` (honest advice `(2, 1)`). -/
theorem rem_frame_witness :
    ∃ q r f, remAdvice 32 7 3 = some (q, r) ∧
      execRows 32 (fun i => if i = 1 then 7 else if i = 2 then 3 else 0)
        [ ⟨⟨0, RV32IM.VIRTUAL_ADVICE, none, none, some 33, none, some 0⟩,
            ⟨none, none, some 2⟩, none, some 2⟩,
          ⟨⟨0, RV32IM.VIRTUAL_ADVICE, none, none, some 3, none, some 1⟩,
            ⟨none, none, some 1⟩, none, some 1⟩,
          ⟨⟨0, RV32IM.VIRTUAL_ASSERT_VALID_SIGNED_REMAINDER, some 3, some 2, none, none,
              some 2⟩,
            ⟨some 1, some 3, none⟩, none, none⟩,
          ⟨⟨0, RV32IM.MUL, some 33, some 2, some 34, none, some 3⟩,
            ⟨some 2, some 3, some 6⟩, none, none⟩,
          ⟨⟨0, RV32IM.ADD, some 34, some 3, some 32, none, some 4⟩,
            ⟨some 6, some 1, some 7⟩, none, none⟩,
          ⟨⟨0, RV32IM.VIRTUAL_ASSERT_EQ, some 32, some 1, none, none, some 5⟩,
            ⟨some 7, some 7, none⟩, none, none⟩ ] = some (f, [1, 1]) ∧
      f 3 = r ∧ f 1 = 7 ∧ f 2 = 3 ∧
      ∀ i, i < 32 → i ≠ 1 → i ≠ 2 → i ≠ 3 → f i = 0 :=
  rem_frame (a := 1) (b := 2) (d := 3) (n := 0) (x := 7) (y := 3)
    (fun i => if i = 1 then 7 else if i = 2 then 3 else 0)
    (by norm_num) (by norm_num) (by norm_num) (by norm_num) (by norm_num)
    (by norm_num) (by norm_num) (by norm_num) (by norm_num)
    (by intro i h1 h2; simp [h1, h2])
    (by decide)

/-! ## HyperKZG verifier case analysis -/

/-- Every run of the verifier panics, accepts, or rejects with
`InternalError` — no other outcome occurs. -/
theorem hyperVerify_outcomes {F : Type} [Field F] [DecidableEq F]
    (oracle : Transcript F → F) (vk : KZGVerifierKey F) (t : Transcript F)
    (C : F) (x : List F) (y : F) (pi : HyperKZGProof F) :
    hyperVerify oracle vk t C x y pi = none ∨
    (∃ t2, hyperVerify oracle vk t C x y pi = some (.ok (), t2)) ∨
    (∃ t2, hyperVerify oracle vk t C x y pi = some (.error .InternalError, t2)) := by
  unfold hyperVerify
  simp only []
  split
  · exact Or.inr (Or.inr ⟨_, rfl⟩)
  · split
    · exact Or.inr (Or.inr ⟨_, rfl⟩)
    · split
      · split
        · exact Or.inr (Or.inr ⟨_, rfl⟩)
        · split
          · exact Or.inr (Or.inr ⟨_, rfl⟩)
          · split
            · exact Or.inl rfl
            · split
              · exact Or.inr (Or.inl ⟨_, rfl⟩)
              · exact Or.inr (Or.inr ⟨_, rfl⟩)
      · exact Or.inl rfl


/-- The `r = 0 ∨ C = 0` guard rejects with `InternalError`. -/
theorem hyperVerify_guard {F : Type} [Field F] [DecidableEq F]
    (oracle : Transcript F → F) (vk : KZGVerifierKey F) (t : Transcript F)
    (C : F) (x : List F) (y : F) (pi : HyperKZGProof F)
    (h0 : (challengeScalar oracle (appendPoints t "c" pi.com) "c").1 = 0 ∨ C = 0) :
    hyperVerify oracle vk t C x y pi =
      some (.error .InternalError,
        (challengeScalar oracle (appendPoints t "c" pi.com) "c").2) := by
  unfold hyperVerify
  simp only []
  rw [if_pos h0]

/-- Wrong row count in `pi.v` rejects with `InternalError`. -/
theorem hyperVerify_shape3 {F : Type} [Field F] [DecidableEq F]
    (oracle : Transcript F → F) (vk : KZGVerifierKey F) (t : Transcript F)
    (C : F) (x : List F) (y : F) (pi : HyperKZGProof F)
    (h0 : ¬((challengeScalar oracle (appendPoints t "c" pi.com) "c").1 = 0 ∨ C = 0))
    (hlen : pi.v.length ≠ 3) :
    hyperVerify oracle vk t C x y pi =
      some (.error .InternalError,
        (challengeScalar oracle (appendPoints t "c" pi.com) "c").2) := by
  unfold hyperVerify
  simp only []
  rw [if_neg h0, if_pos hlen]

/-- A row of the wrong length in `pi.v` rejects with `InternalError`. -/
theorem hyperVerify_shape_rows {F : Type} [Field F] [DecidableEq F]
    (oracle : Transcript F → F) (vk : KZGVerifierKey F) (t : Transcript F)
    (C : F) (x : List F) (y : F) (pi : HyperKZGProof F)
    (ypos yneg Ylist : List F)
    (h0 : ¬((challengeScalar oracle (appendPoints t "c" pi.com) "c").1 = 0 ∨ C = 0))
    (hv : pi.v = [ypos, yneg, Ylist])
    (hrow : ypos.length ≠ x.length ∨ yneg.length ≠ x.length ∨ Ylist.length ≠ x.length) :
    hyperVerify oracle vk t C x y pi =
      some (.error .InternalError,
        (challengeScalar oracle (appendPoints t "c" pi.com) "c").2) := by
  unfold hyperVerify
  simp only []
  rw [if_neg h0, hv]
  rw [if_neg (by simp)]
  dsimp only
  rw [if_pos hrow]

/-- A failed pairing check rejects with `InternalError`. -/
theorem hyperVerify_pairing_false {F : Type} [Field F] [DecidableEq F]
    (oracle : Transcript F → F) (vk : KZGVerifierKey F) (t : Transcript F)
    (C : F) (x : List F) (y : F) (pi : HyperKZGProof F)
    (ypos yneg Ylist : List F) (t2 : Transcript F)
    (h0 : ¬((challengeScalar oracle (appendPoints t "c" pi.com) "c").1 = 0 ∨ C = 0))
    (hv : pi.v = [ypos, yneg, Ylist])
    (h1 : ypos.length = x.length) (h2 : yneg.length = x.length)
    (h3 : Ylist.length = x.length)
    (hcons : consistencyOk (challengeScalar oracle (appendPoints t "c" pi.com) "c").1 x
      ypos yneg (Ylist ++ [y]) = true)
    (hkzg : kzg_verify_batch oracle vk (C :: pi.com) pi.w
      [(challengeScalar oracle (appendPoints t "c" pi.com) "c").1,
       -(challengeScalar oracle (appendPoints t "c" pi.com) "c").1,
       (challengeScalar oracle (appendPoints t "c" pi.com) "c").1 *
         (challengeScalar oracle (appendPoints t "c" pi.com) "c").1]
      pi.v (challengeScalar oracle (appendPoints t "c" pi.com) "c").2 = some (false, t2)) :
    hyperVerify oracle vk t C x y pi = some (.error .InternalError, t2) := by
  unfold hyperVerify
  simp only []
  rw [hv] at hkzg
  rw [if_neg h0, hv]
  rw [if_neg (by simp)]
  dsimp only
  rw [if_neg (by simp [h1, h2, h3])]
  rw [if_neg (by simp [hcons])]
  rw [hkzg]
  rfl


/-- A failing consistency index rejects with `InternalError`. -/
theorem hyperVerify_consistency_fail {F : Type} [Field F] [DecidableEq F]
    (oracle : Transcript F → F) (vk : KZGVerifierKey F) (t : Transcript F)
    (C : F) (x : List F) (y : F) (pi : HyperKZGProof F)
    (ypos yneg Ylist : List F)
    (h0 : ¬((challengeScalar oracle (appendPoints t "c" pi.com) "c").1 = 0 ∨ C = 0))
    (hv : pi.v = [ypos, yneg, Ylist])
    (h1 : ypos.length = x.length) (h2 : yneg.length = x.length)
    (h3 : Ylist.length = x.length)
    (hcons : consistencyOk (challengeScalar oracle (appendPoints t "c" pi.com) "c").1 x
      ypos yneg (Ylist ++ [y]) = false) :
    hyperVerify oracle vk t C x y pi =
      some (.error .InternalError,
        (challengeScalar oracle (appendPoints t "c" pi.com) "c").2) := by
  unfold hyperVerify
  simp only []
  rw [if_neg h0, hv]
  rw [if_neg (by simp)]
  dsimp only
  rw [if_neg (by simp [h1, h2, h3])]
  rw [if_pos (by simp [hcons])]

/-- If the verifier accepts then the consistency loop passed. -/
theorem hyperVerify_ok_consistency {F : Type} [Field F] [DecidableEq F]
    (oracle : Transcript F → F) (vk : KZGVerifierKey F) (t : Transcript F)
    (C : F) (x : List F) (y : F) (pi : HyperKZGProof F)
    (ypos yneg Ylist : List F) (t2 : Transcript F)
    (hv : pi.v = [ypos, yneg, Ylist])
    (h : hyperVerify oracle vk t C x y pi = some (.ok (), t2)) :
    consistencyOk (challengeScalar oracle (appendPoints t "c" pi.com) "c").1 x
      ypos yneg (Ylist ++ [y]) = true := by
  unfold hyperVerify at h
  simp only [] at h
  rw [hv] at h
  split at h
  · exact absurd h (by simp)
  · split at h
    · exact absurd h (by simp)
    · dsimp only at h
      split at h
      · exact absurd h (by simp)
      · split at h <;> rename_i hcons
        · exact absurd h (by simp)
        · simpa using hcons

/-- `consistencyOk` is `false` as soon as one index fails its equation. -/
theorem consistencyOk_false_of_index {F : Type} [Field F] [DecidableEq F]
    (r : F) (x ypos yneg Y : List F) (i : Nat) (hi : i < x.length)
    (hbad : ¬((2 : F) * r * Y.getD (i + 1) 0 =
      r * (1 - x.getD (x.length - i - 1) 0) * (ypos.getD i 0 + yneg.getD i 0)
        + x.getD (x.length - i - 1) 0 * (ypos.getD i 0 - yneg.getD i 0))) :
    consistencyOk r x ypos yneg Y = false := by
  rw [Bool.eq_false_iff]
  intro hall
  unfold consistencyOk at hall
  rw [List.all_eq_true] at hall
  have := hall i (List.mem_range.mpr hi)
  rw [decide_eq_true_eq] at this
  exact hbad this

/-- If `consistencyOk` holds then every index satisfies its equation. -/
theorem consistencyOk_all {F : Type} [Field F] [DecidableEq F]
    (r : F) (x ypos yneg Y : List F)
    (h : consistencyOk r x ypos yneg Y = true) (i : Nat) (hi : i < x.length) :
    (2 : F) * r * Y.getD (i + 1) 0 =
      r * (1 - x.getD (x.length - i - 1) 0) * (ypos.getD i 0 + yneg.getD i 0)
        + x.getD (x.length - i - 1) 0 * (ypos.getD i 0 - yneg.getD i 0) := by
  unfold consistencyOk at h
  rw [List.all_eq_true] at h
  have := h i (List.mem_range.mpr hi)
  rwa [decide_eq_true_eq] at this

/-- If the batched check panics, so does the verifier. -/
theorem hyperVerify_batch_none {F : Type} [Field F] [DecidableEq F]
    (oracle : Transcript F → F) (vk : KZGVerifierKey F) (t : Transcript F)
    (C : F) (x : List F) (y : F) (pi : HyperKZGProof F)
    (ypos yneg Ylist : List F)
    (h0 : ¬((challengeScalar oracle (appendPoints t "c" pi.com) "c").1 = 0 ∨ C = 0))
    (hv : pi.v = [ypos, yneg, Ylist])
    (h1 : ypos.length = x.length) (h2 : yneg.length = x.length)
    (h3 : Ylist.length = x.length)
    (hcons : consistencyOk (challengeScalar oracle (appendPoints t "c" pi.com) "c").1 x
      ypos yneg (Ylist ++ [y]) = true)
    (hkzg : kzg_verify_batch oracle vk (C :: pi.com) pi.w
      [(challengeScalar oracle (appendPoints t "c" pi.com) "c").1,
       -(challengeScalar oracle (appendPoints t "c" pi.com) "c").1,
       (challengeScalar oracle (appendPoints t "c" pi.com) "c").1 *
         (challengeScalar oracle (appendPoints t "c" pi.com) "c").1]
      pi.v (challengeScalar oracle (appendPoints t "c" pi.com) "c").2 = none) :
    hyperVerify oracle vk t C x y pi = none := by
  unfold hyperVerify
  simp only []
  rw [hv] at hkzg
  rw [if_neg h0, hv]
  rw [if_neg (by simp)]
  dsimp only
  rw [if_neg (by simp [h1, h2, h3])]
  rw [if_neg (by simp [hcons])]
  rw [hkzg]

/-- The `assert_eq!(W.len(), 3)` in `kzg_verify_batch` panics on a witness
list of the wrong length (the point list `u` always has length 3). -/
theorem kzg_verify_batch_W_panic {F : Type} [Field F] [DecidableEq F]
    (oracle : Transcript F → F) (vk : KZGVerifierKey F) (Cl W : List F)
    (u0 u1 u2 : F) (v : List (List F)) (t : Transcript F)
    (hW : W.length ≠ 3) :
    kzg_verify_batch oracle vk Cl W [u0, u1, u2] v t = none := by
  unfold kzg_verify_batch
  simp only []
  rw [if_neg (by simp), if_pos hW]


instance : Fact (Nat.Prime 101) := ⟨by norm_num⟩

/-! ## Claim C2: the multilinear consistency check -/

/-- C2: with `ypos = v[0]`, `yneg = v[1]`, `Y = v[2] ++ [y]`, the verifier
requires, for every `i < ℓ`, the exact field equation
`2·r·Y[i+1] = r·(1 − x[ℓ-1-i])·(ypos[i] + yneg[i]) + x[ℓ-1-i]·(ypos[i] − yneg[i])`
(acceptance implies every index satisfies it), and rejects with
`InternalError` as soon as any single index fails it. -/
theorem hyperkzg_consistency_check {F : Type} [Field F] [DecidableEq F]
    (oracle : Transcript F → F) (vk : KZGVerifierKey F) (t : Transcript F)
    (C : F) (x : List F) (y : F) (pi : HyperKZGProof F)
    (ypos yneg Ylist : List F) (hv : pi.v = [ypos, yneg, Ylist]) :
    (∀ t2, hyperVerify oracle vk t C x y pi = some (.ok (), t2) →
      ∀ i, i < x.length →
        (2 : F) * (challengeScalar oracle (appendPoints t "c" pi.com) "c").1 *
            (Ylist ++ [y]).getD (i + 1) 0 =
          (challengeScalar oracle (appendPoints t "c" pi.com) "c").1 *
              (1 - x.getD (x.length - i - 1) 0) * (ypos.getD i 0 + yneg.getD i 0)
            + x.getD (x.length - i - 1) 0 * (ypos.getD i 0 - yneg.getD i 0)) ∧
    (∀ i, i < x.length →
      ¬((challengeScalar oracle (appendPoints t "c" pi.com) "c").1 = 0 ∨ C = 0) →
      ypos.length = x.length → yneg.length = x.length → Ylist.length = x.length →
      ¬((2 : F) * (challengeScalar oracle (appendPoints t "c" pi.com) "c").1 *
            (Ylist ++ [y]).getD (i + 1) 0 =
          (challengeScalar oracle (appendPoints t "c" pi.com) "c").1 *
              (1 - x.getD (x.length - i - 1) 0) * (ypos.getD i 0 + yneg.getD i 0)
            + x.getD (x.length - i - 1) 0 * (ypos.getD i 0 - yneg.getD i 0)) →
      hyperVerify oracle vk t C x y pi =
        some (.error .InternalError,
          (challengeScalar oracle (appendPoints t "c" pi.com) "c").2)) := by
  constructor
  · intro t2 h i hi
    exact consistencyOk_all _ _ _ _ _
      (hyperVerify_ok_consistency oracle vk t C x y pi ypos yneg Ylist t2 hv h) i hi
  · intro i hi h0 h1 h2 h3 hbad
    exact hyperVerify_consistency_fail oracle vk t C x y pi ypos yneg Ylist h0 hv h1 h2 h3
      (consistencyOk_false_of_index _ _ _ _ _ i hi hbad)

/-- Witness for `hyperkzg_consistency_check`: a concrete proof whose first
consistency index fails is rejected with `InternalError`. -/
theorem hyperkzg_consistency_check_witness :
    hyperVerify (fun _ => (1 : ZMod 101)) ⟨1, 1, 5⟩ [] 1 [0] 1
        ⟨[], [], [[0], [0], [0]]⟩ =
      some (.error .InternalError, [TItem.points "c" [], TItem.chal "c"]) :=
  (hyperkzg_consistency_check (fun _ => (1 : ZMod 101)) ⟨1, 1, 5⟩ [] 1 [0] 1
      ⟨[], [], [[0], [0], [0]]⟩ [0] [0] [0] rfl).2 0 (by norm_num)
    (by decide) rfl rfl rfl (by decide)

/-! ## Claim C3: uniform rejection with `InternalError` -/

/-- C3: every rejection of `HyperKZG::verify` carries the single error kind
`InternalError` — in particular the `r = 0 ∨ C = 0` guard after absorbing
`pi.com` under label `"c"`, a malformed `pi.v` (row count or row length),
a failed consistency index, and a failed pairing check — and no other error
kind is ever returned. -/
theorem hyperkzg_uniform_rejection {F : Type} [Field F] [DecidableEq F]
    (oracle : Transcript F → F) (vk : KZGVerifierKey F) (t : Transcript F)
    (C : F) (x : List F) (y : F) (pi : HyperKZGProof F) :
    (∀ e t2, hyperVerify oracle vk t C x y pi = some (.error e, t2) →
      e = ProofVerifyError.InternalError) ∧
    (((challengeScalar oracle (appendPoints t "c" pi.com) "c").1 = 0 ∨ C = 0) →
      hyperVerify oracle vk t C x y pi =
        some (.error .InternalError,
          (challengeScalar oracle (appendPoints t "c" pi.com) "c").2)) ∧
    (¬((challengeScalar oracle (appendPoints t "c" pi.com) "c").1 = 0 ∨ C = 0) →
      pi.v.length ≠ 3 →
      hyperVerify oracle vk t C x y pi =
        some (.error .InternalError,
          (challengeScalar oracle (appendPoints t "c" pi.com) "c").2)) ∧
    (∀ ypos yneg Ylist,
      ¬((challengeScalar oracle (appendPoints t "c" pi.com) "c").1 = 0 ∨ C = 0) →
      pi.v = [ypos, yneg, Ylist] →
      (ypos.length ≠ x.length ∨ yneg.length ≠ x.length ∨ Ylist.length ≠ x.length) →
      hyperVerify oracle vk t C x y pi =
        some (.error .InternalError,
          (challengeScalar oracle (appendPoints t "c" pi.com) "c").2)) ∧
    (∀ ypos yneg Ylist t2,
      ¬((challengeScalar oracle (appendPoints t "c" pi.com) "c").1 = 0 ∨ C = 0) →
      pi.v = [ypos, yneg, Ylist] →
      ypos.length = x.length → yneg.length = x.length → Ylist.length = x.length →
      consistencyOk (challengeScalar oracle (appendPoints t "c" pi.com) "c").1 x
        ypos yneg (Ylist ++ [y]) = true →
      ∀ t2', kzg_verify_batch oracle vk (C :: pi.com) pi.w
        [(challengeScalar oracle (appendPoints t "c" pi.com) "c").1,
         -(challengeScalar oracle (appendPoints t "c" pi.com) "c").1,
         (challengeScalar oracle (appendPoints t "c" pi.com) "c").1 *
           (challengeScalar oracle (appendPoints t "c" pi.com) "c").1]
        pi.v (challengeScalar oracle (appendPoints t "c" pi.com) "c").2
          = some (false, t2') → t2 = t2' →
      hyperVerify oracle vk t C x y pi = some (.error .InternalError, t2)) := by
  refine ⟨?_, ?_, ?_, ?_, ?_⟩
  · intro e t2 h
    rcases hyperVerify_outcomes oracle vk t C x y pi with h1 | ⟨t3, h1⟩ | ⟨t3, h1⟩
    · rw [h1] at h
      exact Option.noConfusion h
    · rw [h1] at h
      simp at h
    · rw [h1] at h
      simp only [Option.some_inj, Prod.mk.injEq, Except.error.injEq] at h
      exact h.1.symm
  · exact hyperVerify_guard oracle vk t C x y pi
  · exact hyperVerify_shape3 oracle vk t C x y pi
  · intro ypos yneg Ylist h0 hv hrow
    exact hyperVerify_shape_rows oracle vk t C x y pi ypos yneg Ylist h0 hv hrow
  · intro ypos yneg Ylist t2 h0 hv h1 h2 h3 hcons t2' hkzg ht
    subst ht
    exact hyperVerify_pairing_false oracle vk t C x y pi ypos yneg Ylist t2 h0 hv h1 h2 h3
      hcons hkzg

/-- Witness for `hyperkzg_uniform_rejection`: with a constant-zero oracle
the challenge `r` is `0` and the verifier rejects with `InternalError`. -/
theorem hyperkzg_uniform_rejection_witness :
    hyperVerify (fun _ => (0 : ZMod 101)) ⟨1, 1, 5⟩ [] 1 [0] 1
        ⟨[], [0, 0, 0], [[0], [0], [0]]⟩ =
      some (.error .InternalError, [TItem.points "c" [], TItem.chal "c"]) :=
  (hyperkzg_uniform_rejection (fun _ => (0 : ZMod 101)) ⟨1, 1, 5⟩ [] 1 [0] 1
      ⟨[], [0, 0, 0], [[0], [0], [0]]⟩).2.1 (Or.inl rfl)

/-! ## Claim C10: the shape of `pi.w` is only guarded by an assertion -/

/-- C10 (counterexample): the claim says *every* proof whose `w` field is
not of length 3 but whose `v` field passes the shape check makes the
verifier panic; but if the consistency check fails first, the verifier
returns `InternalError` without ever reaching the assertion: here `w = []`
and `v = [[0],[0],[0]]` passes the shape check, yet the run returns an
error rather than panicking. -/
theorem hyperkzg_w_shape_cex :
    (([] : List (ZMod 101)).length ≠ 3) ∧
    hyperVerify (fun _ => (1 : ZMod 101)) ⟨1, 1, 5⟩ [] 2 [0] 1
        ⟨[], [], [[0], [0], [0]]⟩ =
      some (.error .InternalError, [TItem.points "c" [], TItem.chal "c"]) := by
  constructor
  · decide
  · decide

/-- C10 (amended): if a proof *reaches the batched check* (nonzero `r`,
nonzero commitment, well-shaped `v`, consistency holds) and its `w` field
does not have exactly 3 elements, `HyperKZG::verify` panics
(`assert_eq!(W.len(), 3)`) instead of returning an error. -/
theorem hyperkzg_w_shape_panic {F : Type} [Field F] [DecidableEq F]
    (oracle : Transcript F → F) (vk : KZGVerifierKey F) (t : Transcript F)
    (C : F) (x : List F) (y : F) (pi : HyperKZGProof F)
    (ypos yneg Ylist : List F)
    (h0 : ¬((challengeScalar oracle (appendPoints t "c" pi.com) "c").1 = 0 ∨ C = 0))
    (hv : pi.v = [ypos, yneg, Ylist])
    (h1 : ypos.length = x.length) (h2 : yneg.length = x.length)
    (h3 : Ylist.length = x.length)
    (hcons : consistencyOk (challengeScalar oracle (appendPoints t "c" pi.com) "c").1 x
      ypos yneg (Ylist ++ [y]) = true)
    (hW : pi.w.length ≠ 3) :
    hyperVerify oracle vk t C x y pi = none :=
  hyperVerify_batch_none oracle vk t C x y pi ypos yneg Ylist h0 hv h1 h2 h3 hcons
    (kzg_verify_batch_W_panic oracle vk (C :: pi.com) pi.w _ _ _ pi.v _ hW)

/-- Witness for `hyperkzg_w_shape_panic`: a run that reaches the batched
check with an empty `w` panics (`none`). -/
theorem hyperkzg_w_shape_panic_witness :
    hyperVerify (fun _ => (1 : ZMod 101)) ⟨1, 1, 5⟩ [] 1 [0] 1
      ⟨[], [], [[1], [1], [1]]⟩ = none := by
  rw [hyperkzg_w_shape_panic (fun _ => (1 : ZMod 101)) ⟨1, 1, 5⟩ [] 1 [0] 1
    ⟨[], [], [[1], [1], [1]]⟩ [1] [1] [1] (by decide) rfl rfl rfl rfl (by decide)
    (by decide)]


/-! ## List lemmas for the MSM / batching algebra -/

theorem msm_nil_left {F : Type} [Field F] (s : List F) : msm [] s = 0 := rfl

theorem msm_nil_right {F : Type} [Field F] (b : List F) : msm b [] = 0 := by
  unfold msm
  rw [List.zip_nil_right]
  rfl

theorem msm_cons {F : Type} [Field F] (a b : F) (as bs : List F) :
    msm (a :: as) (b :: bs) = a * b + msm as bs := by
  unfold msm
  rw [List.zip_cons_cons, List.map_cons, List.sum_cons]

theorem msm_map_mul {F : Type} [Field F] (m : F) :
    ∀ (as bs : List F), msm as (bs.map (· * m)) = m * msm as bs
  | [], bs => by simp [msm_nil_left]
  | a :: as, [] => by simp [msm_nil_right]
  | a :: as, b :: bs => by
    rw [List.map_cons, msm_cons, msm_cons, msm_map_mul m as bs]
    ring

theorem msm_map_mul_left {F : Type} [Field F] (m : F) :
    ∀ (as bs : List F), msm as (bs.map (fun b => m * b)) = m * msm as bs
  | [], bs => by simp [msm_nil_left]
  | a :: as, [] => by simp [msm_nil_right]
  | a :: as, b :: bs => by
    rw [List.map_cons, msm_cons, msm_cons, msm_map_mul_left m as bs]
    ring

theorem msm_append {F : Type} [Field F] :
    ∀ (a c b d : List F), a.length = c.length →
      msm (a ++ b) (c ++ d) = msm a c + msm b d
  | [], [], b, d, _ => by simp [msm_nil_left]
  | a0 :: a, c0 :: c, b, d, h => by
    rw [List.cons_append, List.cons_append, msm_cons, msm_cons,
      msm_append a c b d (by simpa using h)]
    ring
  | [], _ :: _, _, _, h => by simp at h
  | _ :: _, [], _, _, h => by simp at h

theorem batch_challenge_powers_length {F : Type} [Field F] (q : F) (k : Nat) :
    (batch_challenge_powers q k).length = k := by
  unfold batch_challenge_powers
  simp

theorem batch_challenge_powers_succ {F : Type} [Field F] (q : F) (k : Nat) :
    batch_challenge_powers q (k + 1) =
      1 :: (batch_challenge_powers q k).map (fun p => q * p) := by
  unfold batch_challenge_powers
  rw [List.range_succ_eq_map, List.map_cons, List.map_map, List.map_map]
  rw [show ((fun i : Nat => q ^ i) ∘ Nat.succ) = (fun i : Nat => q * q ^ i) from
    funext fun i => pow_succ' q i]
  rw [pow_zero]
  rfl

theorem list_sum_map_mul_left {F : Type} [Field F] (q : F) (f : Nat → F) :
    ∀ l : List Nat, (l.map fun i => q * f i).sum = q * (l.map f).sum
  | [] => by simp
  | i :: l => by
    rw [List.map_cons, List.sum_cons, List.map_cons, List.sum_cons,
      list_sum_map_mul_left q f l]
    ring

theorem msm_powers_eq_sum {F : Type} [Field F] (q : F) :
    ∀ (v : List F) (k : Nat),
      msm v (batch_challenge_powers q k) =
        ((List.range k).map fun i => q ^ i * v.getD i 0).sum
  | [], k => by
    rw [msm_nil_left]
    refine (List.sum_eq_zero fun z hz => ?_).symm
    rcases List.mem_map.mp hz with ⟨i, -, rfl⟩
    show q ^ i * (0:F) = 0
    exact mul_zero _
  | a :: v, 0 => by simp [batch_challenge_powers, msm_nil_right]
  | a :: v, k + 1 => by
    rw [batch_challenge_powers_succ, msm_cons, msm_map_mul_left,
      msm_powers_eq_sum q v k, List.range_succ_eq_map, List.map_cons, List.sum_cons,
      List.map_map]
    rw [show ((fun i : Nat => q ^ i * (a :: v).getD i 0) ∘ Nat.succ) =
        (fun i : Nat => q * (q ^ i * v.getD i 0)) from
      funext fun i => by
        show q ^ (i + 1) * v.getD i 0 = _
        rw [pow_succ']
        ring]
    rw [list_sum_map_mul_left]
    simp only [pow_zero, List.getD_cons_zero]
    ring


/-! ## Claim C4: the grouped pairing check equals the plaintext form -/

/-- C4: `kzg_verify_batch`'s single-MSM/two-pairing check computes exactly
the plaintext batched check: on commitments `Cl`, witnesses
`(w0, w1, w2)`, points `(r, −r, r²)` and a `3 × k` evaluation matrix, the
returned boolean is the decision of `plaintextBatchedCheck` at the
transcript-derived challenges `q` and `d_0` (with `d_1 = d_0²`). -/
theorem kzg_verify_batch_grouped_eq_plaintext {F : Type} [Field F] [DecidableEq F]
    (oracle : Transcript F → F) (vk : KZGVerifierKey F) (Cl : List F)
    (w0 w1 w2 r : F) (v0 v1 v2 : List F) (t : Transcript F) :
    kzg_verify_batch oracle vk Cl [w0, w1, w2] [r, -r, r * r] [v0, v1, v2] t =
      some
        (decide (plaintextBatchedCheck vk Cl w0 w1 w2 r (-r) (r * r) v0 v1 v2
          (challengeScalar oracle (appendScalars t "v" ([v0, v1, v2].flatten)) "r").1
          (challengeScalar oracle (appendPoints
            (challengeScalar oracle (appendScalars t "v" ([v0, v1, v2].flatten)) "r").2
            "W" [w0, w1, w2]) "d").1),
        (challengeScalar oracle (appendPoints
          (challengeScalar oracle (appendScalars t "v" ([v0, v1, v2].flatten)) "r").2
          "W" [w0, w1, w2]) "d").2) := by
  unfold kzg_verify_batch
  simp only []
  rw [if_neg (by simp), if_neg (by simp)]
  simp only [List.map_cons, List.map_nil]
  set q := (challengeScalar oracle (appendScalars t "v" ([v0, v1, v2].flatten)) "r").1
    with hq
  set d0 := (challengeScalar oracle (appendPoints
    (challengeScalar oracle (appendScalars t "v" ([v0, v1, v2].flatten)) "r").2
    "W" [w0, w1, w2]) "d").1 with hd0
  have hL : msm (Cl ++ [w0, w1, w2, vk.g1])
      ((batch_challenge_powers q Cl.length).map (· * (1 + d0 + d0 * d0)) ++
        [r, -r * d0, r * r * (d0 * d0),
          -(msm v0 (batch_challenge_powers q Cl.length) +
            d0 * msm v1 (batch_challenge_powers q Cl.length) +
            d0 * d0 * msm v2 (batch_challenge_powers q Cl.length))]) =
      ((((List.range Cl.length).map fun i => q ^ i * Cl.getD i 0).sum -
          ((List.range Cl.length).map fun i => q ^ i * v0.getD i 0).sum * vk.g1 + r * w0) +
        d0 * ((((List.range Cl.length).map fun i => q ^ i * Cl.getD i 0).sum -
          ((List.range Cl.length).map fun i => q ^ i * v1.getD i 0).sum * vk.g1 + -r * w1)) +
        d0 * d0 * ((((List.range Cl.length).map fun i => q ^ i * Cl.getD i 0).sum -
          ((List.range Cl.length).map fun i => q ^ i * v2.getD i 0).sum * vk.g1 +
            r * r * w2))) := by
    rw [msm_append Cl _ _ _ (by simp [batch_challenge_powers_length])]
    rw [msm_map_mul, msm_cons, msm_cons, msm_cons, msm_cons, msm_nil_left]
    rw [msm_powers_eq_sum, msm_powers_eq_sum, msm_powers_eq_sum, msm_powers_eq_sum]
    ring
  rw [hL]
  rfl


/-! ## Evaluation lemmas for the prover's batching and witness polynomials -/

theorem scalar_vector_muladd_length {F : Type} [Field F] :
    ∀ (a v : List F) (s : F), v.length ≤ a.length →
      (scalar_vector_muladd a v s).length = a.length
  | a, [], s, _ => by cases a <;> rfl
  | a0 :: ar, v0 :: vr, s, h => by
    unfold scalar_vector_muladd
    rw [List.length_cons, List.length_cons,
      scalar_vector_muladd_length ar vr s (by simpa using h)]
  | [], _ :: _, _, h => by simp at h

theorem poly_eval_muladd {F : Type} [Field F] :
    ∀ (a v : List F) (s u : F), v.length ≤ a.length →
      poly_eval (scalar_vector_muladd a v s) u = poly_eval a u + s * poly_eval v u
  | a, [], s, u, _ => by
    cases a <;> simp [scalar_vector_muladd, poly_eval]
  | a0 :: ar, v0 :: vr, s, u, h => by
    unfold scalar_vector_muladd
    rw [poly_eval, poly_eval, poly_eval, poly_eval_muladd ar vr s u (by simpa using h)]
    ring
  | [], _ :: _, _, _, h => by simp at h

theorem batchGo_length {F : Type} [Field F] :
    ∀ (fs : List (List F)) (B : List F) (qp q : F),
      (∀ g ∈ fs, g.length ≤ B.length) → (batchGo B fs qp q).length = B.length
  | [], B, qp, q, _ => rfl
  | fi :: rest, B, qp, q, h => by
    unfold batchGo
    have hfi : fi.length ≤ B.length := h fi (List.mem_cons_self fi rest)
    rw [batchGo_length rest _ _ _
      (fun g hg => by rw [scalar_vector_muladd_length B fi qp hfi]; exact h g (List.mem_cons_of_mem _ hg))]
    exact scalar_vector_muladd_length B fi qp hfi

theorem poly_eval_batchGo {F : Type} [Field F] :
    ∀ (fs : List (List F)) (B : List F) (qp q u : F),
      (∀ g ∈ fs, g.length ≤ B.length) →
      poly_eval (batchGo B fs qp q) u =
        poly_eval B u +
          qp * msm (fs.map fun f => poly_eval f u) (batch_challenge_powers q fs.length)
  | [], B, qp, q, u, _ => by
    simp [batchGo, batch_challenge_powers, msm_nil_right]
  | fi :: rest, B, qp, q, u, h => by
    have hfi : fi.length ≤ B.length := h fi (List.mem_cons_self fi rest)
    unfold batchGo
    rw [poly_eval_batchGo rest _ _ _ _
      (fun g hg => by rw [scalar_vector_muladd_length B fi qp hfi]; exact h g (List.mem_cons_of_mem _ hg))]
    rw [poly_eval_muladd B fi qp u hfi]
    rw [List.length_cons, batch_challenge_powers_succ, List.map_cons, msm_cons,
      msm_map_mul_left]
    ring

/-- Evaluating the batched polynomial `B = Σ q^i·f_i` at `u`. -/
theorem poly_eval_batch {F : Type} [Field F] (f0 : List F) (rest : List (List F))
    (q u : F) (h : ∀ g ∈ rest, g.length ≤ f0.length) :
    poly_eval (kzg_compute_batch_polynomial (f0 :: rest) q) u =
      msm ((f0 :: rest).map fun f => poly_eval f u)
        (batch_challenge_powers q (f0 :: rest).length) := by
  unfold kzg_compute_batch_polynomial
  rw [poly_eval_batchGo rest f0 q q u h, List.length_cons, batch_challenge_powers_succ,
    List.map_cons, msm_cons, msm_map_mul_left]
  ring

theorem kzg_compute_batch_polynomial_length {F : Type} [Field F] (f0 : List F)
    (rest : List (List F)) (q : F) (h : ∀ g ∈ rest, g.length ≤ f0.length) :
    (kzg_compute_batch_polynomial (f0 :: rest) q).length = f0.length := by
  unfold kzg_compute_batch_polynomial
  exact batchGo_length rest f0 q q h

theorem compute_witness_polynomial_length {F : Type} [Field F] :
    ∀ (f : List F) (u : F), (compute_witness_polynomial f u).length = f.length
  | [], _ => rfl
  | a :: f, u => by
    unfold compute_witness_polynomial
    rw [List.length_cons, List.length_cons, compute_witness_polynomial_length f u]

/-- The synthetic-division identity:
`(t − u) · h(t) = f(t) − f(u)` for the witness polynomial `h`. -/
theorem witness_poly_eval {F : Type} [Field F] :
    ∀ (f : List F) (u t : F),
      (t - u) * poly_eval (compute_witness_polynomial f u) t =
        poly_eval f t - poly_eval f u
  | [], u, t => by simp [compute_witness_polynomial, poly_eval]
  | a :: f, u, t => by
    unfold compute_witness_polynomial
    rw [poly_eval, poly_eval, poly_eval]
    have ih := witness_poly_eval f u t
    linear_combination t * ih

/-- One fold step halves the length (dropping a trailing odd element). -/
theorem fold_step_length {F : Type} [Field F] (xi : F) :
    ∀ (P : List F), (fold_step xi P).length = P.length / 2
  | [] => by simp [fold_step]
  | [a] => by simp [fold_step]
  | a :: b :: rest => by
    unfold fold_step
    rw [List.length_cons, fold_step_length xi rest]
    simp only [List.length_cons]
    omega

/-- The Gemini fold identity: for an even-length `P`,
`2·t·(fold_step x̂ P)(t²) = t·(1 − x̂)·(P(t) + P(−t)) + x̂·(P(t) − P(−t))`. -/
theorem fold_step_eval {F : Type} [Field F] (xi t : F) :
    ∀ (P : List F), P.length % 2 = 0 →
      2 * t * poly_eval (fold_step xi P) (t * t) =
        t * (1 - xi) * (poly_eval P t + poly_eval P (-t)) +
          xi * (poly_eval P t - poly_eval P (-t))
  | [], _ => by
    simp [fold_step, poly_eval]
  | [a], h => by simp at h
  | a :: b :: rest, h => by
    have hr : rest.length % 2 = 0 := by
      simp only [List.length_cons] at h
      omega
    have ih := fold_step_eval xi t rest hr
    unfold fold_step
    simp only [poly_eval]
    linear_combination (t * t) * ih


/-! ## Fold-tower lemmas -/

theorem fold_tower_length {F : Type} [Field F] :
    ∀ (ys : List F) (Z : List F), (fold_tower Z ys).length = ys.length + 1
  | [], Z => rfl
  | xi :: rest, Z => by
    unfold fold_tower
    rw [List.length_cons, fold_tower_length rest (fold_step xi Z), List.length_cons]

theorem fold_tower_getD_zero {F : Type} [Field F] (ys Z : List F) :
    (fold_tower Z ys).getD 0 [] = Z := by
  cases ys <;> rfl

theorem fold_tower_getD_succ {F : Type} [Field F] :
    ∀ (ys : List F) (Z : List F) (i : Nat), i < ys.length →
      (fold_tower Z ys).getD (i + 1) [] =
        fold_step (ys.getD i 0) ((fold_tower Z ys).getD i [])
  | [], Z, i, h => by simp at h
  | xi :: rest, Z, 0, _ => by
    unfold fold_tower
    rw [List.getD_cons_succ, List.getD_cons_zero, List.getD_cons_zero,
      fold_tower_getD_zero]
  | xi :: rest, Z, i + 1, h => by
    unfold fold_tower
    rw [List.getD_cons_succ, List.getD_cons_succ, List.getD_cons_succ,
      fold_tower_getD_succ rest (fold_step xi Z) i (by simpa using h)]

theorem fold_tower_getD_length {F : Type} [Field F] :
    ∀ (ys : List F) (Z : List F) (i : Nat), i ≤ ys.length →
      ((fold_tower Z ys).getD i []).length = Z.length / 2 ^ i
  | ys, Z, 0, _ => by rw [fold_tower_getD_zero]; simp
  | [], Z, i + 1, h => by simp at h
  | xi :: rest, Z, i + 1, h => by
    unfold fold_tower
    rw [List.getD_cons_succ,
      fold_tower_getD_length rest (fold_step xi Z) i (by simpa using h),
      fold_step_length]
    rw [Nat.div_div_eq_div_mul, pow_succ]
    ring_nf

theorem fold_tower_last {F : Type} [Field F] :
    ∀ (ys : List F) (Z : List F),
      (fold_tower Z ys).getD ys.length [] =
        ys.foldl (fun P xi => fold_step xi P) Z
  | [], Z => rfl
  | xi :: rest, Z => by
    unfold fold_tower
    rw [List.length_cons, List.getD_cons_succ, List.foldl_cons,
      fold_tower_last rest (fold_step xi Z)]

theorem fold_tower_take {F : Type} [Field F] :
    ∀ (ys : List F) (Z : List F) (n : Nat),
      fold_tower Z (ys.take n) = (fold_tower Z ys).take (n + 1)
  | [], Z, n => by simp [fold_tower]
  | xi :: rest, Z, 0 => by simp [fold_tower]
  | xi :: rest, Z, n + 1 => by
    rw [List.take_succ_cons]
    unfold fold_tower
    rw [fold_tower_take rest (fold_step xi Z) n, List.take_succ_cons]

theorem fold_tower_mem_length {F : Type} [Field F] :
    ∀ (ys : List F) (Z : List F) (P : List F), P ∈ fold_tower Z ys →
      P.length ≤ Z.length
  | [], Z, P, h => by
    rcases List.mem_singleton.mp h with rfl
    exact le_refl _
  | xi :: rest, Z, P, h => by
    unfold fold_tower at h
    rcases List.mem_cons.mp h with rfl | h2
    · exact le_refl _
    · have := fold_tower_mem_length rest (fold_step xi Z) P h2
      rw [fold_step_length] at this
      omega


/-! ## Indexing and commitment helpers -/

theorem list_getD_map {α β : Type} (f : α → β) (l : List α) (i : Nat)
    (hi : i < l.length) (d : α) (e : β) : (l.map f).getD i e = f (l.getD i d) := by
  rw [List.getD_eq_getElem _ _ (by simpa using hi), List.getD_eq_getElem _ _ hi,
    List.getElem_map]

theorem msm_bases_mul {F : Type} [Field F] (m : F) :
    ∀ (bs as : List F), msm (bs.map (fun b => m * b)) as = m * msm bs as
  | bs, [] => by simp [msm_nil_right]
  | [], a :: as => by simp [msm_nil_left]
  | b :: bs, a :: as => by
    rw [List.map_cons, msm_cons, msm_cons, msm_bases_mul m bs as]
    ring

/-- Committing under the honest SRS `pk = (τ^0, …, τ^(N-1))` evaluates the
coefficient list at `τ`. -/
theorem msm_powers_eval {F : Type} [Field F] (τ : F) :
    ∀ (c : List F) (N : Nat), c.length ≤ N →
      msm ((List.range N).map fun i => τ ^ i) c = poly_eval c τ
  | [], N, _ => by simp [msm_nil_right, poly_eval]
  | a :: c, 0, h => by simp at h
  | a :: c, N + 1, h => by
    rw [List.range_succ_eq_map, List.map_cons, List.map_map]
    rw [show ((fun i : Nat => τ ^ i) ∘ Nat.succ) = (fun i : Nat => τ * τ ^ i) from
      funext fun i => pow_succ' τ i]
    rw [show (fun i : Nat => τ * τ ^ i) = ((fun b => τ * b) ∘ fun i : Nat => τ ^ i) from rfl]
    rw [← List.map_map, msm_cons, msm_bases_mul, msm_powers_eval τ c N (by simpa using h)]
    simp only [poly_eval, pow_zero]
    ring

/-- The prover's commitment loop succeeds and commits each polynomial. -/
theorem mapM_commit_eq {F : Type} [Field F] (pk : List F) :
    ∀ (l : List (List F)), (∀ P ∈ l, P.length ≤ pk.length) →
      l.mapM (fun Pi => (uniKzgCommit pk Pi).toOption) =
        some (l.map fun Pi => msm pk Pi)
  | [], _ => rfl
  | P :: l, h => by
    rw [List.mapM_cons, mapM_commit_eq pk l (fun g hg => h g (List.mem_cons_of_mem _ hg))]
    have hP : ¬(pk.length < P.length) := by
      have := h P (List.mem_cons_self P l)
      omega
    unfold uniKzgCommit
    rw [if_neg hP]
    rfl


theorem fold_tower_eq_cons {F : Type} [Field F] (ys Z : List F) :
    ∃ rest, fold_tower Z ys = Z :: rest := by
  cases ys <;> exact ⟨_, rfl⟩

theorem list_mapM_some {α β : Type} (f : α → Option β) (g : α → β) :
    ∀ l : List α, (∀ a ∈ l, f a = some (g a)) → l.mapM f = some (l.map g)
  | [], _ => rfl
  | a :: l, h => by
    rw [List.mapM_cons, h a (List.mem_cons_self a l),
      list_mapM_some f g l (fun b hb => h b (List.mem_cons_of_mem _ hb))]
    rfl

/-- Under the honest preconditions the prover succeeds, and its proof
object and final transcript are the explicit pipeline below. -/
theorem hyperOpen_eq {F : Type} [Field F] [DecidableEq F]
    (oracle : Transcript F → F) (pk : List F) (t : Transcript F) (Z x : List F)
    (hZ : Z.length = 2 ^ x.length) (hx : 1 ≤ x.length) (hpk : Z.length ≤ pk.length) :
    hyperOpen oracle pk t Z x =
      (let polys := fold_tower Z (x.reverse.take (x.length - 1))
       let com := (polys.drop 1).map fun Pi => msm pk Pi
       let rt := challengeScalar oracle (appendPoints t "c" com) "c"
       let u := [rt.1, -rt.1, rt.1 * rt.1]
       let v := u.map fun ui => polys.map fun f => poly_eval f ui
       let qt := challengeScalar oracle (appendScalars rt.2 "v" v.flatten) "r"
       let B := kzg_compute_batch_polynomial polys qt.1
       let w := u.map fun ui => msm pk (compute_witness_polynomial B ui)
       let dt := challengeScalar oracle (appendPoints qt.2 "W" w) "d"
       some (⟨com, w, v⟩, dt.2)) := by
  obtain ⟨rest, hrest⟩ := fold_tower_eq_cons (x.reverse.take (x.length - 1)) Z
  have hmem : ∀ P ∈ fold_tower Z (x.reverse.take (x.length - 1)), P.length ≤ pk.length :=
    fun P hP => le_trans (fold_tower_mem_length _ Z P hP) hpk
  have hrestlen : ∀ g ∈ rest, g.length ≤ Z.length := by
    intro g hg
    have : g ∈ fold_tower Z (x.reverse.take (x.length - 1)) := by
      rw [hrest]
      exact List.mem_cons_of_mem _ hg
    exact fold_tower_mem_length _ Z g this
  have hBlen : ∀ q : F,
      (kzg_compute_batch_polynomial (fold_tower Z (x.reverse.take (x.length - 1))) q).length
        = Z.length := by
    intro q
    rw [hrest]
    exact kzg_compute_batch_polynomial_length Z rest q hrestlen
  have hopen1 : ∀ (q ui : F),
      kzg_open pk
        (kzg_compute_batch_polynomial (fold_tower Z (x.reverse.take (x.length - 1))) q) ui =
      some (msm pk (compute_witness_polynomial
        (kzg_compute_batch_polynomial (fold_tower Z (x.reverse.take (x.length - 1))) q) ui)) := by
    intro q ui
    unfold kzg_open uniKzgCommit
    rw [if_neg (by rw [compute_witness_polynomial_length, hBlen]; omega)]
    rfl
  unfold hyperOpen
  simp only []
  rw [if_neg (by omega), if_neg (by omega)]
  rw [mapM_commit_eq pk _ (fun P hP => hmem P (List.mem_of_mem_drop hP))]
  dsimp only
  rw [list_mapM_some _ _ _ (fun ui _ => hopen1 _ ui)]


/-- The prover's evaluation matrix passes the verifier's multilinear
consistency check, for any challenge `r`. -/
theorem consistency_honest {F : Type} [Field F] [DecidableEq F] (r : F) (Z x : List F)
    (hZ : Z.length = 2 ^ x.length) (hx : 1 ≤ x.length) :
    consistencyOk r x
      ((fold_tower Z (x.reverse.take (x.length - 1))).map fun f => poly_eval f r)
      ((fold_tower Z (x.reverse.take (x.length - 1))).map fun f => poly_eval f (-r))
      (((fold_tower Z (x.reverse.take (x.length - 1))).map fun f => poly_eval f (r * r))
        ++ [mlEval x Z]) = true := by
  have hrev : x.reverse.length = x.length := List.length_reverse x
  have hTlen : (fold_tower Z x.reverse).length = x.length + 1 := by
    rw [fold_tower_length, hrev]
  have hpolysT : fold_tower Z (x.reverse.take (x.length - 1)) =
      (fold_tower Z x.reverse).take x.length := by
    rw [fold_tower_take]
    congr 1
    omega
  have hpolyslen : (fold_tower Z (x.reverse.take (x.length - 1))).length = x.length := by
    rw [hpolysT, List.length_take, hTlen]
    omega
  unfold consistencyOk
  rw [List.all_eq_true]
  intro i hmemi
  have hi : i < x.length := List.mem_range.mp hmemi
  rw [decide_eq_true_eq]
  have hpolysget : ∀ j, j < x.length →
      (fold_tower Z (x.reverse.take (x.length - 1))).getD j [] =
        (fold_tower Z x.reverse).getD j [] := by
    intro j hj
    rw [hpolysT,
      List.getD_eq_getElem _ _ (by rw [List.length_take, hTlen]; omega),
      List.getD_eq_getElem _ _ (by rw [hTlen]; omega), List.getElem_take]
  have hypos : ((fold_tower Z (x.reverse.take (x.length - 1))).map
        fun f => poly_eval f r).getD i 0 =
      poly_eval ((fold_tower Z x.reverse).getD i []) r := by
    rw [list_getD_map _ _ i (by rw [hpolyslen]; exact hi) [], hpolysget i hi]
  have hyneg : ((fold_tower Z (x.reverse.take (x.length - 1))).map
        fun f => poly_eval f (-r)).getD i 0 =
      poly_eval ((fold_tower Z x.reverse).getD i []) (-r) := by
    rw [list_getD_map _ _ i (by rw [hpolyslen]; exact hi) [], hpolysget i hi]
  have hY : (((fold_tower Z (x.reverse.take (x.length - 1))).map
        fun f => poly_eval f (r * r)) ++ [mlEval x Z]).getD (i + 1) 0 =
      poly_eval ((fold_tower Z x.reverse).getD (i + 1) []) (r * r) := by
    rcases Nat.lt_or_ge (i + 1) x.length with hlt | hge
    · rw [List.getD_append _ _ _ _ (by rw [List.length_map, hpolyslen]; exact hlt),
        list_getD_map _ _ (i + 1) (by rw [hpolyslen]; exact hlt) [],
        hpolysget (i + 1) hlt]
    · have hieq : i + 1 = x.length := by omega
      rw [List.getD_append_right _ _ _ _ (by rw [List.length_map, hpolyslen]; omega),
        List.length_map, hpolyslen, hieq, Nat.sub_self, List.getD_cons_zero]
      have hlast : (fold_tower Z x.reverse).getD x.length [] =
          x.reverse.foldl (fun P xi => fold_step xi P) Z := by
        conv_lhs => rw [← hrev]
        exact fold_tower_last x.reverse Z
      have hlastlen : ((fold_tower Z x.reverse).getD x.length []).length = 1 := by
        rw [fold_tower_getD_length x.reverse Z x.length (by omega), hZ,
          Nat.div_self (by positivity)]
      obtain ⟨c, hc⟩ := List.length_eq_one.mp hlastlen
      rw [hc]
      show mlEval x Z = poly_eval [c] (r * r)
      unfold mlEval
      rw [← hlast, hc]
      simp [poly_eval]
  have hxrev : x.getD (x.length - i - 1) 0 = x.reverse.getD i 0 := by
    rw [List.getD_eq_getElem _ _ (by omega),
      List.getD_eq_getElem _ _ (by rw [hrev]; exact hi), List.getElem_reverse]
    congr 1
    omega
  have hsucc : (fold_tower Z x.reverse).getD (i + 1) [] =
      fold_step (x.reverse.getD i 0) ((fold_tower Z x.reverse).getD i []) :=
    fold_tower_getD_succ x.reverse Z i (by rw [hrev]; exact hi)
  have heven : ((fold_tower Z x.reverse).getD i []).length % 2 = 0 := by
    rw [fold_tower_getD_length x.reverse Z i (by rw [hrev]; omega), hZ,
      Nat.pow_div (by omega) (by norm_num)]
    have h2 : (2:Nat) ∣ 2 ^ (x.length - i) := dvd_pow_self 2 (by omega)
    omega
  rw [hypos, hyneg, hY, hxrev, hsucc]
  exact fold_step_eval (x.reverse.getD i 0) r ((fold_tower Z x.reverse).getD i []) heven


/-- The grouped pairing equation holds for the honest prover data: with
commitments `P_i(τ)`, witnesses `h_j(τ)` for the batched polynomial `B`,
points `(r, −r, r²)` and any challenges `q, d_0`, the MSM side equals
`τ·(w_0 + d_0·w_1 + d_0²·w_2)`. -/
theorem batch_check_algebra {F : Type} [Field F] (τ r q d0 : F)
    (Z : List F) (rest : List (List F)) (hlen : ∀ g ∈ rest, g.length ≤ Z.length) :
    msm (((Z :: rest).map fun f => poly_eval f τ) ++
        [poly_eval (compute_witness_polynomial
            (kzg_compute_batch_polynomial (Z :: rest) q) r) τ,
         poly_eval (compute_witness_polynomial
            (kzg_compute_batch_polynomial (Z :: rest) q) (-r)) τ,
         poly_eval (compute_witness_polynomial
            (kzg_compute_batch_polynomial (Z :: rest) q) (r * r)) τ,
         (1:F)])
      (((batch_challenge_powers q ((Z :: rest).map fun f => poly_eval f τ).length).map
          (· * (1 + d0 + d0 * d0))) ++
        [r, -r * d0, r * r * (d0 * d0),
         -(msm ((Z :: rest).map fun f => poly_eval f r)
             (batch_challenge_powers q ((Z :: rest).map fun f => poly_eval f τ).length) +
           d0 * msm ((Z :: rest).map fun f => poly_eval f (-r))
             (batch_challenge_powers q ((Z :: rest).map fun f => poly_eval f τ).length) +
           d0 * d0 * msm ((Z :: rest).map fun f => poly_eval f (r * r))
             (batch_challenge_powers q ((Z :: rest).map fun f => poly_eval f τ).length))])
      * 1
    = (poly_eval (compute_witness_polynomial
          (kzg_compute_batch_polynomial (Z :: rest) q) r) τ +
       d0 * poly_eval (compute_witness_polynomial
          (kzg_compute_batch_polynomial (Z :: rest) q) (-r)) τ +
       d0 * d0 * poly_eval (compute_witness_polynomial
          (kzg_compute_batch_polynomial (Z :: rest) q) (r * r)) τ) * τ := by
  have hmaplen : ((Z :: rest).map fun f => poly_eval f τ).length = (Z :: rest).length :=
    List.length_map _ _
  rw [msm_append _ _ _ _ (by simp [batch_challenge_powers_length])]
  rw [msm_map_mul, msm_cons, msm_cons, msm_cons, msm_cons, msm_nil_left]
  rw [hmaplen]
  rw [← poly_eval_batch Z rest q τ hlen, ← poly_eval_batch Z rest q r hlen,
    ← poly_eval_batch Z rest q (-r) hlen, ← poly_eval_batch Z rest q (r * r) hlen]
  have h1 := witness_poly_eval (kzg_compute_batch_polynomial (Z :: rest) q) r τ
  have h2 := witness_poly_eval (kzg_compute_batch_polynomial (Z :: rest) q) (-r) τ
  have h3 := witness_poly_eval (kzg_compute_batch_polynomial (Z :: rest) q) (r * r) τ
  linear_combination (-1 : F) * h1 - d0 * h2 - (d0 * d0) * h3


theorem hyperOpen_some_inv {F : Type} [Field F] [DecidableEq F]
    {oracle : Transcript F → F} {pk : List F} {t : Transcript F} {Z x : List F}
    {p : HyperKZGProof F × Transcript F}
    (h : hyperOpen oracle pk t Z x = some p) :
    Z.length = 2 ^ x.length ∧ 1 ≤ x.length := by
  unfold hyperOpen at h
  simp only [] at h
  split at h
  · exact Option.noConfusion h
  · split at h
    · exact Option.noConfusion h
    · constructor
      · omega
      · omega

theorem hyperCommit_inv {F : Type} [Field F] {pk Z : List F} {C : F}
    (h : hyperCommit pk Z = .ok C) : Z.length ≤ pk.length ∧ C = msm pk Z := by
  unfold hyperCommit uniKzgCommit at h
  split at h
  · exact Except.noConfusion h
  · refine ⟨by omega, ?_⟩
    injection h with h
    exact h.symm


/-- C1: completeness of HyperKZG over the honest powers-of-tau SRS. Committing the
evaluation vector Z, opening at x with the prover, and verifying the resulting proof
against the claimed evaluation mlEval x Z succeeds — provided the challenge r drawn
after absorbing the commitment is nonzero and the commitment C is not the identity
(without these hypotheses the verifier's guard rejects; see the counterexample). -/
theorem hyperkzg_completeness {F : Type} [Field F] [DecidableEq F]
    (oracle : Transcript F → F) (τ : F) (N : Nat) (t0 : Transcript F)
    (Z x : List F) (C : F) (pi : HyperKZGProof F) (tP : Transcript F)
    (hcommit : hyperCommit ((List.range N).map fun i => τ ^ i) Z = .ok C)
    (hopen : hyperOpen oracle ((List.range N).map fun i => τ ^ i) t0 Z x = some (pi, tP))
    (hr : (challengeScalar oracle (appendPoints t0 "c" pi.com) "c").1 ≠ 0)
    (hC : C ≠ 0) :
    hyperVerify oracle ⟨1, 1, τ⟩ t0 C x (mlEval x Z) pi = some (.ok (), tP) := by
  obtain ⟨hZ, hx⟩ := hyperOpen_some_inv hopen
  obtain ⟨hZN, hCval⟩ := hyperCommit_inv hcommit
  rw [List.length_map, List.length_range] at hZN
  rw [hyperOpen_eq oracle _ t0 Z x hZ hx (by simpa using hZN)] at hopen
  injection hopen with hopen
  obtain ⟨hpi, htP⟩ := Prod.mk.inj hopen
  subst hpi
  subst htP
  subst hCval
  have hpolyslen : (fold_tower Z (x.reverse.take (x.length - 1))).length = x.length := by
    rw [fold_tower_length, List.length_take, List.length_reverse]
    omega
  obtain ⟨rest, hrest⟩ := fold_tower_eq_cons (x.reverse.take (x.length - 1)) Z
  unfold hyperVerify
  dsimp only
  rw [if_neg (not_or.mpr ⟨hr, hC⟩)]
  rw [if_neg (by simp)]
  simp only [List.map_cons, List.map_nil]
  rw [if_neg (by simp [hpolyslen])]
  rw [if_neg (by rw [consistency_honest _ Z x hZ hx]; simp)]
  have hrest_len : ∀ g ∈ rest, g.length ≤ Z.length := by
    intro g hg
    exact fold_tower_mem_length _ Z g (by rw [hrest]; exact List.mem_cons_of_mem _ hg)
  have hcomm : ∀ g : List F, g.length ≤ Z.length →
      msm ((List.range N).map fun i => τ ^ i) g = poly_eval g τ := by
    intro g hg
    exact msm_powers_eval τ g N (by omega)
  have hw : ∀ q u : F,
      msm ((List.range N).map fun i => τ ^ i)
        (compute_witness_polynomial (kzg_compute_batch_polynomial (Z :: rest) q) u) =
      poly_eval
        (compute_witness_polynomial (kzg_compute_batch_polynomial (Z :: rest) q) u) τ := by
    intro q u
    refine hcomm _ ?_
    rw [compute_witness_polynomial_length, kzg_compute_batch_polynomial_length Z rest q hrest_len]
  rw [hrest]
  simp only [List.drop_one, List.tail_cons]
  rw [hcomm Z le_rfl,
    List.map_congr_left (fun g hg => hcomm g (hrest_len g hg)), hw, hw, hw]
  unfold kzg_verify_batch
  dsimp only
  rw [if_neg (by simp), if_neg (by simp)]
  simp only [List.map_cons, List.map_nil]
  split <;> rename_i hsplit
  · rfl
  · exfalso
    apply hsplit
    rw [decide_eq_true_eq]
    exact batch_check_algebra τ _ _ _ Z rest hrest_len

/-- C1 counterexample to the unqualified claim: for the zero evaluation vector the
commitment is the group identity, open succeeds, yet verify rejects with
InternalError because of the r = 0 or C = 0 guard, so Verify(C, x, P(x), Open(P, x))
is not accept for every P and x. -/
theorem hyperkzg_completeness_cex :
    hyperCommit ((List.range 2).map fun i => (5 : ZMod 101) ^ i) [0, 0] = .ok 0 ∧
    hyperOpen (fun _ => (1 : ZMod 101)) ((List.range 2).map fun i => (5 : ZMod 101) ^ i)
      [] [0, 0] [3] = some (⟨[], [0, 0, 0], [[0], [0], [0]]⟩,
        [TItem.points "c" [], TItem.chal "c", TItem.scalars "v" [0, 0, 0],
         TItem.chal "r", TItem.points "W" [0, 0, 0], TItem.chal "d"]) ∧
    mlEval ([3] : List (ZMod 101)) [0, 0] = 0 ∧
    hyperVerify (fun _ => (1 : ZMod 101)) ⟨1, 1, 5⟩ [] 0 [3] 0
      ⟨[], [0, 0, 0], [[0], [0], [0]]⟩ =
      some (.error .InternalError, [TItem.points "c" [], TItem.chal "c"]) := by
  refine ⟨by decide, by decide, by decide, by decide⟩

theorem hyperkzg_completeness_witness :
    hyperVerify (fun _ => (2 : ZMod 101)) ⟨1, 1, 5⟩ [] 56 [3, 4]
      (mlEval ([3, 4] : List (ZMod 101)) [1, 2, 2, 4])
      ⟨[55], [91, 3, 82], [[45, 25], [74, 86], [95, 45]]⟩ =
      some (.ok (), [TItem.points "c" [55], TItem.chal "c",
        TItem.scalars "v" [45, 25, 74, 86, 95, 45], TItem.chal "r",
        TItem.points "W" [91, 3, 82], TItem.chal "d"]) :=
  hyperkzg_completeness (fun _ => 2) 5 4 [] [1, 2, 2, 4] [3, 4] 56
    ⟨[55], [91, 3, 82], [[45, 25], [74, 86], [95, 45]]⟩ _
    (by decide) (by decide) (by decide) (by decide)

/-! ## C5: transcript synchrony -/

/-- On success the final prover transcript of `hyperOpen` is the chain
`c`-points, `c`-challenge, `v`-scalars, `r`-challenge, `W`-points, `d`-challenge
determined by the initial transcript and the fields of the produced proof;
in particular the prover always consumes the final `"d"` challenge. -/
theorem hyperOpen_transcript {F : Type} [Field F] [DecidableEq F]
    {oracle : Transcript F → F} {pk : List F} {t : Transcript F} {Z x : List F}
    {pi : HyperKZGProof F} {tP : Transcript F}
    (h : hyperOpen oracle pk t Z x = some (pi, tP)) :
    tP = (challengeScalar oracle (appendPoints (challengeScalar oracle
      (appendScalars (challengeScalar oracle (appendPoints t "c" pi.com) "c").2
        "v" pi.v.flatten) "r").2 "W" pi.w) "d").2 := by
  unfold hyperOpen at h
  simp only [] at h
  split at h
  · exact Option.noConfusion h
  split at h
  · exact Option.noConfusion h
  split at h
  · exact Option.noConfusion h
  split at h
  · exact Option.noConfusion h
  injection h with h
  obtain ⟨h1, h2⟩ := Prod.mk.inj h
  subst h2
  subst h1
  rfl

/-- On success (panic-free) the final transcript of `kzg_verify_batch` is the
chain `v`-scalars, `r`-challenge, `W`-points, `d`-challenge over its input
transcript, for either pairing outcome. -/
theorem kzg_verify_batch_transcript {F : Type} [Field F] [DecidableEq F]
    {oracle : Transcript F → F} {vk : KZGVerifierKey F}
    {Cl W u : List F} {v : List (List F)} {t : Transcript F}
    {b : Bool} {t2 : Transcript F}
    (h : kzg_verify_batch oracle vk Cl W u v t = some (b, t2)) :
    t2 = (challengeScalar oracle (appendPoints (challengeScalar oracle
      (appendScalars t "v" v.flatten) "r").2 "W" W) "d").2 := by
  unfold kzg_verify_batch at h
  simp only [] at h
  split at h
  · exact Option.noConfusion h
  split at h
  · exact Option.noConfusion h
  split at h
  · split at h
    · injection h with h
      exact (Prod.mk.inj h).2.symm
    · exact Option.noConfusion h
  · exact Option.noConfusion h

/-- When `hyperVerify` accepts, its final transcript is the same chain
`c`-points, `c`-challenge, `v`-scalars, `r`-challenge, `W`-points,
`d`-challenge over the initial transcript and the proof's fields. -/
theorem hyperVerify_ok_transcript {F : Type} [Field F] [DecidableEq F]
    {oracle : Transcript F → F} {vk : KZGVerifierKey F} {t : Transcript F}
    {C : F} {x : List F} {y : F} {pi : HyperKZGProof F} {tV : Transcript F}
    (h : hyperVerify oracle vk t C x y pi = some (.ok (), tV)) :
    tV = (challengeScalar oracle (appendPoints (challengeScalar oracle
      (appendScalars (challengeScalar oracle (appendPoints t "c" pi.com) "c").2
        "v" pi.v.flatten) "r").2 "W" pi.w) "d").2 := by
  unfold hyperVerify at h
  simp only [] at h
  split at h
  · simp at h
  split at h
  · simp at h
  split at h
  case _ ypos yneg Ylist heqv =>
    split at h
    · simp at h
    split at h
    · simp at h
    split at h
    · exact Option.noConfusion h
    case _ b t2 heqb =>
      rw [kzg_verify_batch_transcript heqb, heqv] at *
      split at h
      · injection h with h
        exact ((Prod.mk.inj h).2).symm
      · simp at h
  case _ hne =>
    exact Option.noConfusion h

/-- C5: transcript synchrony. If `hyperOpen` succeeds producing proof `pi` with
final prover transcript `tP`, and `hyperVerify` run from the identically
initialized transcript on the same point and that proof accepts with final
verifier transcript `tV`, then `tP = tV` — both sides performed the identical
ordered sequence of appends and challenges, the prover having unconditionally
consumed the final `"d"` challenge — and hence the next challenge scalar drawn
under any label agrees between the two transcripts. -/
theorem hyperkzg_transcript_synchrony {F : Type} [Field F] [DecidableEq F]
    (oracle : Transcript F → F) (pk : List F) (vk : KZGVerifierKey F)
    (t0 : Transcript F) (Z x : List F) (C y : F)
    (pi : HyperKZGProof F) (tP tV : Transcript F)
    (hopen : hyperOpen oracle pk t0 Z x = some (pi, tP))
    (hverify : hyperVerify oracle vk t0 C x y pi = some (.ok (), tV)) :
    tP = tV ∧ ∀ label : String,
      (challengeScalar oracle tP label).1 = (challengeScalar oracle tV label).1 := by
  have h12 : tP = tV :=
    (hyperOpen_transcript hopen).trans (hyperVerify_ok_transcript hverify).symm
  exact ⟨h12, fun label => by rw [h12]⟩

theorem hyperkzg_transcript_synchrony_witness :
    ([TItem.points "c" [55], TItem.chal "c",
      TItem.scalars "v" [45, 25, 74, 86, 95, 45], TItem.chal "r",
      TItem.points "W" [91, 3, 82], TItem.chal "d"] : Transcript (ZMod 101)) =
      [TItem.points "c" [55], TItem.chal "c",
       TItem.scalars "v" [45, 25, 74, 86, 95, 45], TItem.chal "r",
       TItem.points "W" [91, 3, 82], TItem.chal "d"] ∧
    (challengeScalar (fun _ => (2 : ZMod 101))
      [TItem.points "c" [55], TItem.chal "c",
       TItem.scalars "v" [45, 25, 74, 86, 95, 45], TItem.chal "r",
       TItem.points "W" [91, 3, 82], TItem.chal "d"] "next").1 =
    (challengeScalar (fun _ => (2 : ZMod 101))
      [TItem.points "c" [55], TItem.chal "c",
       TItem.scalars "v" [45, 25, 74, 86, 95, 45], TItem.chal "r",
       TItem.points "W" [91, 3, 82], TItem.chal "d"] "next").1 := by
  have h := hyperkzg_transcript_synchrony (fun _ => (2 : ZMod 101))
    ((List.range 4).map fun i => (5 : ZMod 101) ^ i) ⟨1, 1, 5⟩ [] [1, 2, 2, 4] [3, 4]
    56 20 ⟨[55], [91, 3, 82], [[45, 25], [74, 86], [95, 45]]⟩
    [TItem.points "c" [55], TItem.chal "c",
     TItem.scalars "v" [45, 25, 74, 86, 95, 45], TItem.chal "r",
     TItem.points "W" [91, 3, 82], TItem.chal "d"]
    [TItem.points "c" [55], TItem.chal "c",
     TItem.scalars "v" [45, 25, 74, 86, 95, 45], TItem.chal "r",
     TItem.points "W" [91, 3, 82], TItem.chal "d"]
    (by decide) (by decide)
  exact ⟨h.1, h.2 "next"⟩


end JoltModel
